import Mathlib

/-!
# ghproxy: the mutation pipeline and the response writers

A shallow embedding of `htmlmut/htmlmut.go`, `proxy/htmlmutator.go`,
`proxy/cookies.go`, `proxy/reverseproxy.go` and the link rewriting of `main.go`.

Go strings and the byte slices that hold documents are lists of characters:
Go's `regexp` package decodes the byte slice as UTF-8 and matches it rune by
rune, so a document is kept in decoded form, one list element per rune.

The mutators are built on `regexp`.  The patterns of the program use a small
part of the syntax (literals, `.`, a negated one-character class, alternation,
greedy and lazy repetition, groups written one after another), which is
embedded here as a datatype with the leftmost-first matching discipline of the
package: a match starts as early as possible, and among the matches that start
there the one a backtracking search finds first is taken.
-/

namespace Ghproxy

/-! ## The regular expressions of `regexp` that the program uses -/

/-- Abstract syntax of the patterns.  `star greedy r` is `r*` when `greedy` is
true and `r*?` when it is false (under the flag `U` the two are swapped by the
parser, so `r*` written under `(?U)` is `star false r`). -/
inductive Regex where
  /-- The empty pattern. -/
  | eps : Regex
  /-- One literal character. -/
  | chr : Char → Regex
  /-- The pattern `.` without the flag `s`: any character but a newline. -/
  | dot : Regex
  /-- The class `[^c]`: any character but `c` (a newline included). -/
  | notChr : Char → Regex
  /-- Concatenation. -/
  | cat : Regex → Regex → Regex
  /-- Alternation `a|b`, the left branch preferred. -/
  | alt : Regex → Regex → Regex
  /-- Repetition, zero or more times. -/
  | star : Bool → Regex → Regex

namespace Regex

/-- A literal string: the concatenation of its characters. -/
def str : List Char → Regex
  | [] => eps
  | c :: cs => cat (chr c) (str cs)

/-- Repetition one or more times: `r+` (greedy) or `r+?` (lazy). -/
def plus (greedy : Bool) (r : Regex) : Regex := cat r (star greedy r)

end Regex

/-- The loop of a repetition with continuation `k`: `step` matches the body
once.  A greedy loop tries one more iteration before it tries to stop, a lazy
loop tries to stop first.  An iteration has to consume input; the fuel is the
length of the input, which such iterations cannot exhaust. -/
def starK {R : Type} (step : List Char → (List Char → Option R) → Option R)
    (greedy : Bool) : Nat → List Char → (List Char → Option R) → Option R
  | 0, s, k => k s
  | fuel + 1, s, k =>
    let more : Unit → Option R := fun _ =>
      step s (fun s1 => if s1.length < s.length then starK step greedy fuel s1 k else none)
    if greedy then (more ()).orElse (fun _ => k s) else (k s).orElse more

/-- Backtracking matcher in continuation-passing style: `matchK r s k` matches
`r` against a prefix of `s` and hands the rest of the input to `k`; when `k`
fails the next alternative in priority order is tried. -/
def matchK {R : Type} : Regex → List Char → (List Char → Option R) → Option R
  | .eps, s, k => k s
  | .chr c, s, k =>
    match s with
    | [] => none
    | x :: t => if x = c then k t else none
  | .dot, s, k =>
    match s with
    | [] => none
    | x :: t => if x = '\n' then none else k t
  | .notChr c, s, k =>
    match s with
    | [] => none
    | x :: t => if x = c then none else k t
  | .cat a b, s, k => matchK a s (fun s1 => matchK b s1 k)
  | .alt a b, s, k => (matchK a s k).orElse (fun _ => matchK b s k)
  | .star greedy r, s, k => starK (matchK r) greedy s.length s k

/-- Match a pattern that is a sequence of capturing groups `(r1)(r2)...`:
the result is the text of every group and the input left after the match. -/
def matchGroups {R : Type} :
    List Regex → List Char → (List (List Char) → List Char → Option R) → Option R
  | [], s, k => k [] s
  | r :: rs, s, k =>
    matchK r s (fun s1 =>
      matchGroups rs s1 (fun gs rest => k (s.take (s.length - s1.length) :: gs) rest))

/-- A match found by a search: the text before it, the matched text with its
groups, and the text after it. -/
structure Found where
  before : List Char
  groups : List (List Char)
  whole : List Char
  after : List Char
  deriving DecidableEq, Repr

/-- The match of the groups at the very start of `s`, if any. -/
def matchHere (rs : List Regex) (s : List Char) : Option Found :=
  matchGroups rs s (fun gs rest =>
    some { before := [], groups := gs, whole := s.take (s.length - rest.length), after := rest })

/-- Leftmost search: the first position of `s` at which the pattern matches. -/
def search (rs : List Regex) : List Char → Option Found
  | [] => matchHere rs []
  | c :: t =>
    match matchHere rs (c :: t) with
    | some m => some m
    | none => (search rs t).map (fun m => { m with before := c :: m.before })

/-! ## Replacement templates and the `regexp` calls of the program -/

/-- A character of a group name in a replacement template (the package takes
Unicode letters and digits; the ASCII ones are modelled). -/
def isNameChar (c : Char) : Bool := c.isAlphanum || c == '_'

/-- The function `extract` of `regexp`: the leading name, bare or in braces, of
the template text that follows a `$`, and the text after it. -/
def extract (str : List Char) : Option (List Char × List Char) :=
  match str with
  | [] => none
  | c :: t =>
    if c = '\x7b' then
      if t.takeWhile isNameChar = [] then none
      else
        match t.dropWhile isNameChar with
        | [] => none
        | d :: rest => if d = '\x7d' then some (t.takeWhile isNameChar, rest) else none
    else
      if (c :: t).takeWhile isNameChar = [] then none
      else some ((c :: t).takeWhile isNameChar, (c :: t).dropWhile isNameChar)

/-- The number a name stands for: all digits, no leading zero on a longer
name.  Other names are names of named groups, which no pattern here has. -/
def nameNum (name : List Char) : Option Nat :=
  if name.all Char.isDigit && !(name.head? == some '0' && decide (1 < name.length)) then
    some (name.foldl (fun n c => n * 10 + (c.toNat - '0'.toNat)) 0)
  else none

/-- The text a reference `$name` expands to: the numbered group when it exists,
nothing otherwise.  `groups` holds the whole match at index 0. -/
def refText (name : List Char) (groups : List (List Char)) : List Char :=
  match nameNum name with
  | some n => groups.getD n []
  | none => []

/-- The loop of `Regexp.expand` over the template. -/
def expandFuel : Nat → List Char → List (List Char) → List Char
  | 0, template, _ => template
  | fuel + 1, template, groups =>
    match template with
    | [] => []
    | c :: t =>
      if c = '$' then
        match t with
        | [] => ['$']
        | d :: t1 =>
          if d = '$' then '$' :: expandFuel fuel t1 groups
          else
            match extract (d :: t1) with
            | none => '$' :: expandFuel fuel (d :: t1) groups
            | some (name, rest) => refText name groups ++ expandFuel fuel rest groups
      else c :: expandFuel fuel t groups

/-- The method `Regexp.expand`: the template with `$$` turned into `$` and every
reference `$name` (bare or in braces) replaced by the text of the group it names. -/
def expand (template : List Char) (groups : List (List Char)) : List Char :=
  expandFuel template.length template groups

/-- The loop of `Regexp.ReplaceAll` for a pattern without groups.  No pattern of
the program matches the empty text (each needs a literal `<`), and the special
treatment the package gives to empty matches is left out: the loop stops at
one. -/
def replaceAllFuel (re : Regex) (repl : List Char) : Nat → List Char → List Char
  | 0, s => s
  | fuel + 1, s =>
    match search [re] s with
    | none => s
    | some m =>
      if m.whole = [] then s
      else m.before ++ expand repl [m.whole] ++ replaceAllFuel re repl fuel m.after

/-- The method `Regexp.ReplaceAll`: every match, from left to right and without
overlap, is replaced by the expansion of the template `repl`. -/
def ReplaceAll (re : Regex) (src repl : List Char) : List Char :=
  replaceAllFuel re repl src.length src

/-- The loop of `Regexp.FindAllSubmatch`. -/
def findAllFuel (rs : List Regex) : Nat → List Char → List Found
  | 0, _ => []
  | fuel + 1, s =>
    match search rs s with
    | none => []
    | some m => if m.whole = [] then [] else m :: findAllFuel rs fuel m.after

/-- The method `Regexp.FindAllSubmatch` with `n = -1`, for a pattern that is a
sequence of groups: all successive matches, each as the slice
`[whole, group 1, group 2, ...]`. -/
def FindAllSubmatch (rs : List Regex) (b : List Char) : List (List (List Char)) :=
  (findAllFuel rs b.length b).map (fun m => m.whole :: m.groups)

/-- The call `bytes.Replace(s, old, new, 1)`: the first occurrence of `old` in
`s` is replaced by `new`. -/
def bytesReplaceFirst (s old new : List Char) : List Char :=
  if old.isPrefixOf s then new ++ s.drop old.length
  else
    match s with
    | [] => []
    | c :: t => c :: bytesReplaceFirst t old new

/-- The call `bytes.Join(parts, nil)`. -/
def bytesJoin (parts : List (List Char)) : List Char := parts.flatten

/-! ## `htmlmut/htmlmut.go` -/

/-- A mutator: `type MutateFunc = func([]byte) []byte`. -/
abbrev MutateFunc := List Char → List Char

/-- The function `ChainMutators`: the mutators applied one after another. -/
def ChainMutators (mutators : List MutateFunc) : MutateFunc :=
  fun html => mutators.foldl (fun html mutator => mutator html) html

/-- The pattern of `TagRemover`, ``(?mU) *<TAG(.|\n)+</TAG>``, for a tag name
without pattern metacharacters.  Under the flag `U` the three repetitions are
lazy; the group is not referred to by the replacement, which is nil. -/
def tagRemoverRegex (tag : List Char) : Regex :=
  .cat (.star false (.chr ' '))
    (.cat (.str ('<' :: tag))
      (.cat (.plus false (.alt .dot (.chr '\n')))
        (.str ("</".toList ++ tag ++ ">".toList))))

/-- The function `TagRemover`: a regex-based HTML tag remover. -/
def TagRemover (tag : List Char) : MutateFunc :=
  fun html => ReplaceAll (tagRemoverRegex tag) html []

/-- The pattern `bodyOpeningRegex`, ``<body.*>``. -/
def bodyOpeningRegex : Regex :=
  .cat (.str "<body".toList) (.cat (.star true .dot) (.chr '>'))

/-- The function `ScriptInjector`: injects raw JavaScript to the front of the
body block. -/
def ScriptInjector (script : List Char) : MutateFunc :=
  let scriptTag := "<body>\n\n<script>".toList ++ script ++ "</script>\n\n".toList
  fun html => ReplaceAll bodyOpeningRegex html scriptTag

/-- The pattern `headOpeningRegex`, ``<head.*>``. -/
def headOpeningRegex : Regex :=
  .cat (.str "<head".toList) (.cat (.star true .dot) (.chr '>'))

/-- The function `ExternScriptInjector`: injects an external JavaScript file to
the front of the head block. -/
def ExternScriptInjector (src : List Char) : MutateFunc :=
  let builder := "<head>\n\n".toList ++ "<script src=\"".toList ++ src ++ "\"></script>".toList
  fun html => ReplaceAll headOpeningRegex html builder

/-- The pattern `headClosingRegex`, ``</head>``. -/
def headClosingRegex : Regex := .str "</head>".toList

/-- The function `StylesheetInjector`: injects a CSS stylesheet at the end of the
head block. -/
def StylesheetInjector (cssLink : List Char) : MutateFunc :=
  let linkHead := "<link rel=\"stylesheet\" href=\"".toList ++ cssLink ++ "\">\n\n</head>".toList
  fun html => ReplaceAll headClosingRegex html linkHead

/-- The function `CSSInjector`: injects CSS at the end of the head block. -/
def CSSInjector (css : List Char) : MutateFunc :=
  let styleHead := "<style>".toList ++ css ++ "</style>\n\n</head>".toList
  fun html => ReplaceAll headClosingRegex html styleHead

/-- The groups of the pattern of `TagAttrReplace`,
``(?mU)(<TAG.+ATTR=")([^"]+)(".*>)``, for names without pattern
metacharacters. -/
def tagAttrRegex (tag attr : List Char) : List Regex :=
  [ .cat (.str ('<' :: tag)) (.cat (.plus false .dot) (.str (attr ++ "=\"".toList))),
    .plus false (.notChr '"'),
    .cat (.chr '"') (.cat (.star false .dot) (.chr '>')) ]

/-- The function `TagAttrReplace`: replaces attribute values of a given tag and
attribute key.  Every match is a slice `[whole, $1, $2, $3]` into the document
as it was given; the loop overwrites `$2` and puts the joined groups in place of
the first occurrence of the matched text in the document as it is by then. -/
def TagAttrReplace (tag attr : List Char) (replacer : List Char → List Char) : MutateFunc :=
  fun html =>
    let found := FindAllSubmatch (tagAttrRegex tag attr) html
    if found.isEmpty then html
    else
      found.foldl
        (fun html m =>
          let m2 := m.set 2 (replacer (m.getD 2 []))
          bytesReplaceFirst html (m.getD 0 []) (bytesJoin (m2.drop 1)))
        html

/-- The function `AnchorReplace`: replaces all hyperlinks in the HTML document. -/
def AnchorReplace (linkFunc : List Char → List Char) : MutateFunc :=
  TagAttrReplace "a".toList "href".toList linkFunc

/-! ## The collaborators from `net/http`, `net/url` and `strings` -/

/-- An `http.Header`: the values stored under a key, if the key is present. -/
abbrev Header := List Char → Option (List (List Char))

/-- The method `Header.Del` for a key that is written in canonical form, as the
constant keys of the program are. -/
def Header.Del (h : Header) (key : List Char) : Header :=
  fun k => if k = key then none else h k

/-- The errors of finalization. -/
inductive Error where
  /-- The error `fmt.Errorf("unknown encoding %q", compression)`. -/
  | unknownEncoding (compression : List Char)
  /-- An error that a collaborator returns (`compress/gzip`, `compress/flate`, the
  connection to the client). -/
  | collaborator (message : List Char)
  /-- The error `errors.Wrap(cause, message)`. -/
  | wrap (cause : Error) (message : List Char)
  deriving DecidableEq, Repr

/-- The real `http.ResponseWriter` of a request, as the program drives it: its
header map, the status codes `WriteHeader` was called with, the body bytes
written to the client, the number of calls of `Flush`, and the state of the
connection: `none` for a connection that takes every byte, otherwise the number
of bytes it still takes and the error that `Write` returns after them. -/
structure ResponseWriter where
  header : Header
  statusCodes : List Nat
  body : List Char
  flushes : Nat
  failure : Option (Nat × Error)

/-- The method `ResponseWriter.WriteHeader` of the underlying writer. -/
def ResponseWriter.WriteHeader (w : ResponseWriter) (statusCode : Nat) : ResponseWriter :=
  { w with statusCodes := w.statusCodes ++ [statusCode] }

/-- The method `Flush` of the underlying writer, when it is an `http.Flusher`. -/
def ResponseWriter.Flush (w : ResponseWriter) : ResponseWriter :=
  { w with flushes := w.flushes + 1 }

/-- The method `Header.Get` for a key in canonical form: the first value stored
under the key, the empty string when there is none. -/
def Header.Get (h : Header) (key : List Char) : List Char :=
  match h key with
  | some (v :: _) => v
  | _ => []

/-- The map assignment `h[key] = values`. -/
def Header.assign (h : Header) (key : List Char) (values : List (List Char)) : Header :=
  fun k => if k = key then some values else h k

/-- The method `ResponseWriter.Write` of the underlying writer: the bytes go to
the client as long as the connection takes them.  When it fails, the bytes it
still took are written, and their number comes back with the error. -/
def ResponseWriter.Write (w : ResponseWriter) (b : List Char) :
    ResponseWriter × Nat × Option Error :=
  match w.failure with
  | none => ({ w with body := w.body ++ b }, b.length, none)
  | some (room, err) =>
    if b.length ≤ room then
      ({ w with body := w.body ++ b, failure := some (room - b.length, err) }, b.length, none)
    else
      ({ w with body := w.body ++ b.take room, failure := some (0, err) }, room, some err)

/-- A compressing writer of `compress/gzip` or `compress/flate`, as far as the
program sees it: the bytes it hands to the writer below while `Write(body)`
runs, and the bytes it hands on in `Close`. -/
structure Compressor where
  onWrite : List Char → List Char
  onClose : List Char → List Char

/-- The whole compressed stream of a body. -/
def Compressor.encode (c : Compressor) (body : List Char) : List Char :=
  c.onWrite body ++ c.onClose body

/-- The method `Write` of a compressing writer on top of `w`. -/
def Compressor.Write (c : Compressor) (w : ResponseWriter) (body : List Char) :
    ResponseWriter × Option Error :=
  let (w, _, err) := w.Write (c.onWrite body)
  (w, err)

/-- The method `Close` of a compressing writer on top of `w`, after `body` was
written to it. -/
def Compressor.Close (c : Compressor) (w : ResponseWriter) (body : List Char) :
    ResponseWriter × Option Error :=
  let (w, _, err) := w.Write (c.onClose body)
  (w, err)

/-- The packages `compress/gzip` and `compress/flate`, which are not part of the
program: the error of `gzip.NewReader` on the captured bytes, if any; the result
of reading a gzip and a deflate stream to its end; the two writers. -/
structure Codecs where
  gzipNewReader : List Char → Option Error
  gzipReadAll : List Char → Except Error (List Char)
  flateReadAll : List Char → Except Error (List Char)
  gzipWriter : Compressor
  flateWriter : Compressor

/-- The function `strings.ReplaceAll` for a non-empty `old`: the loop over the
occurrences, from left to right and without overlap. -/
def stringsReplaceAllFuel (old new : List Char) : Nat → List Char → List Char
  | 0, s => s
  | fuel + 1, s =>
    if old.isPrefixOf s then new ++ stringsReplaceAllFuel old new fuel (s.drop old.length)
    else
      match s with
      | [] => []
      | c :: t => c :: stringsReplaceAllFuel old new fuel t

/-- The function `strings.ReplaceAll`.  An empty `old` matches before every
character and at the end. -/
def stringsReplaceAll (s old new : List Char) : List Char :=
  if old = [] then new ++ (s.map (fun c => c :: new)).flatten
  else stringsReplaceAllFuel old new (s.length + 1) s

/-- The function `strings.TrimPrefix`. -/
def stringsTrimPrefix (s pre : List Char) : List Char :=
  if pre.isPrefixOf s then s.drop pre.length else s

/-- The fields of a `url.URL` that the program reads. -/
structure URL where
  Scheme : List Char
  Host : List Char
  Path : List Char

/-- The function `strings.LastIndexByte`: the index of the last `c` in `s`, if
there is one. -/
def stringsLastIndexByte (s : List Char) (c : Char) : Option Nat :=
  if c ∈ s then some (s.length - 1 - s.reverse.indexOf c) else none

/-- The function `validOptionalPort` of `net/url`: the text is empty, or a colon
followed by digits only. -/
def validOptionalPort (port : List Char) : Bool :=
  match port with
  | [] => true
  | c :: rest => c == ':' && rest.all (fun b => !(b < '0' || b > '9'))

/-- The function `splitHostPort` of `net/url`: a valid port after the last colon
is split off, and the square brackets around the host are removed. -/
def splitHostPort (hostPort : List Char) : List Char × List Char :=
  let split : List Char × List Char :=
    match stringsLastIndexByte hostPort ':' with
    | some colon =>
      if validOptionalPort (hostPort.drop colon) then
        (hostPort.take colon, hostPort.drop (colon + 1))
      else (hostPort, [])
    | none => (hostPort, [])
  let host := split.1
  let host :=
    if ['['].isPrefixOf host && [']'].isSuffixOf host then
      (host.take (host.length - 1)).drop 1
    else host
  (host, split.2)

/-- The method `URL.Hostname`: the host without a valid port and without square
brackets. -/
def URL.Hostname (u : URL) : List Char :=
  (splitHostPort u.Host).1

/-! ## `proxy/htmlmutator.go` -/

/-- The type `HTMLMutator`: a wrapper around a mutator. -/
structure HTMLMutator where
  mutator : MutateFunc

/-- The function `NewHTMLMutator`. -/
def NewHTMLMutator (mutator : MutateFunc) : HTMLMutator := { mutator := mutator }

/-- The type `HTMLMutatorWriter`: the underlying writer, the pipeline, the
capture buffer and the fields filled in by finalization. -/
structure HTMLMutatorWriter where
  ResponseWriter : ResponseWriter
  /-- Whether the underlying writer is an `http.Flusher`. -/
  isFlusher : Bool
  mutator : HTMLMutator
  buffer : List Char
  statusCode : Nat
  rawData : List Char
  compression : List Char

/-- The method `HTMLMutator.NewWriter`: a writer with an empty buffer. -/
def HTMLMutator.NewWriter (hmu : HTMLMutator) (w : ResponseWriter) (isFlusher : Bool) :
    HTMLMutatorWriter :=
  { ResponseWriter := w, isFlusher := isFlusher, mutator := hmu, buffer := [],
    statusCode := 0, rawData := [], compression := [] }

/-- The method `HTMLMutatorWriter.WriteHeader`: two headers are deleted, the
status code goes to the underlying writer, which is flushed when it can be. -/
def HTMLMutatorWriter.WriteHeader (muwr : HTMLMutatorWriter) (statusCode : Nat) :
    HTMLMutatorWriter :=
  let header := muwr.ResponseWriter.header
  let header := header.Del "Content-Security-Policy".toList
  let header := header.Del "Content-Length".toList
  let w := { muwr.ResponseWriter with header := header }
  let w := w.WriteHeader statusCode
  let w := if muwr.isFlusher then w.Flush else w
  { muwr with ResponseWriter := w }

/-- The method `HTMLMutatorWriter.Write`: the bytes go to the buffer
(`bytes.Buffer.Write` returns the length written and a nil error). -/
def HTMLMutatorWriter.Write (muwr : HTMLMutatorWriter) (b : List Char) :
    HTMLMutatorWriter × Nat × Option String :=
  ({ muwr with buffer := muwr.buffer ++ b }, b.length, none)

/-- A call the forwarder makes on the writer it is given. -/
inductive WriterCall where
  | write (b : List Char)
  | writeHeader (statusCode : Nat)

/-- The state of the writer after one call. -/
def HTMLMutatorWriter.call (muwr : HTMLMutatorWriter) : WriterCall → HTMLMutatorWriter
  | .write b => (muwr.Write b).1
  | .writeHeader statusCode => muwr.WriteHeader statusCode

/-- The state of the writer after a sequence of calls. -/
def HTMLMutatorWriter.calls (muwr : HTMLMutatorWriter) (cs : List WriterCall) :
    HTMLMutatorWriter :=
  cs.foldl HTMLMutatorWriter.call muwr

/-- The chunks that a sequence of calls passes to `Write`, in order. -/
def writtenChunks : List WriterCall → List (List Char)
  | [] => []
  | .write b :: cs => b :: writtenChunks cs
  | .writeHeader _ :: cs => writtenChunks cs

/-- The method `HTMLMutatorWriter.readUncompressed`: the announced encoding is
noted and the captured bytes are decoded into `rawData`.  (The bytes that the
readers take out of the buffer are not tracked: nothing reads the buffer
afterwards.) -/
def HTMLMutatorWriter.readUncompressed (muwr : HTMLMutatorWriter) (cz : Codecs) :
    HTMLMutatorWriter × Option Error :=
  let muwr := { muwr with
    compression := muwr.ResponseWriter.header.Get "Content-Encoding".toList }
  if muwr.compression = [] then
    ({ muwr with rawData := muwr.buffer }, none)
  else if muwr.compression = "gzip".toList then
    match cz.gzipNewReader muwr.buffer with
    | some err => (muwr, some (.wrap err "failed to create gzip reader".toList))
    | none =>
      match cz.gzipReadAll muwr.buffer with
      | .error err => (muwr, some (.wrap err "failed to decompress".toList))
      | .ok data => ({ muwr with rawData := data }, none)
  else if muwr.compression = "deflate".toList then
    match cz.flateReadAll muwr.buffer with
    | .error err => (muwr, some (.wrap err "failed to decompress".toList))
    | .ok data => ({ muwr with rawData := data }, none)
  else
    (muwr, some (.unknownEncoding muwr.compression))

/-- The method `HTMLMutatorWriter.ApplyHTML`: applies the mutator and flushes the
body, compressed as it came. -/
def HTMLMutatorWriter.ApplyHTML (muwr : HTMLMutatorWriter) (cz : Codecs) :
    HTMLMutatorWriter × Option Error :=
  match muwr.readUncompressed cz with
  | (muwr, some err) => (muwr, some err)
  | (muwr, none) =>
    let body := muwr.mutator.mutator muwr.rawData
    -- the writer and its closer, by the compression noted
    let written : Ghproxy.ResponseWriter × Option Error :=
      if muwr.compression = "gzip".toList then cz.gzipWriter.Write muwr.ResponseWriter body
      else if muwr.compression = "deflate".toList then
        cz.flateWriter.Write muwr.ResponseWriter body
      else
        let (w, _, err) := muwr.ResponseWriter.Write body
        (w, err)
    match written with
    | (w, some err) =>
      ({ muwr with ResponseWriter := w }, some (.wrap err "failed to write".toList))
    | (w, none) =>
      let closed : Ghproxy.ResponseWriter × Option Error :=
        if muwr.compression = "gzip".toList then cz.gzipWriter.Close w body
        else if muwr.compression = "deflate".toList then cz.flateWriter.Close w body
        else (w, none)
      match closed with
      | (w, some err) =>
        ({ muwr with ResponseWriter := w },
          some (.wrap err "failed to flush compressor".toList))
      | (w, none) => ({ muwr with ResponseWriter := w }, none)

/-! ## `proxy/cookies.go` -/

/-- The type `CookieInterceptor`: the function that rewrites a `Set-Cookie`
value. -/
structure CookieInterceptor where
  changer : List Char → List Char

/-- The function `NewCookieInterceptor`. -/
def NewCookieInterceptor (changer : List Char → List Char) : CookieInterceptor :=
  { changer := changer }

/-- The type `cookieInterceptorWriter`: the writer it wraps and the
interceptor. -/
structure cookieInterceptorWriter where
  ResponseWriter : ResponseWriter
  interceptor : CookieInterceptor

/-- The method `CookieInterceptor.NewWriter`. -/
def CookieInterceptor.NewWriter (ci : CookieInterceptor) (w : ResponseWriter) :
    cookieInterceptorWriter :=
  { ResponseWriter := w, interceptor := ci }

/-- The method `cookieInterceptorWriter.WriteHeader`: when the header map has the
key `Set-Cookie`, every value under it is replaced by what the changer makes of
it; then the status code goes to the wrapped writer. -/
def cookieInterceptorWriter.WriteHeader (w : cookieInterceptorWriter) (statusCode : Nat) :
    cookieInterceptorWriter :=
  let actualHeader := w.ResponseWriter.header
  let actualHeader :=
    match actualHeader "Set-Cookie".toList with
    | some cookies =>
      actualHeader.assign "Set-Cookie".toList (cookies.map w.interceptor.changer)
    | none => actualHeader
  { w with ResponseWriter :=
      ({ w.ResponseWriter with header := actualHeader }).WriteHeader statusCode }

/-! ## `proxy/reverseproxy.go` -/

/-- The type `ReverseProxy`, without the embedded forwarder of `httputil`. -/
structure ReverseProxy where
  targetURL : URL
  htmlMutator : HTMLMutator
  cookieInterceptor : CookieInterceptor

/-- The function `NewReverseProxy`; a nil mutator is `none`. -/
def NewReverseProxy (target : URL) (htmlMutator : Option MutateFunc) : ReverseProxy :=
  let domainHeader := "Domain=".toList ++ target.Hostname ++ "; ".toList
  let htmlMutator := match htmlMutator with
    | none => ChainMutators []
    | some m => m
  { targetURL := target,
    htmlMutator := NewHTMLMutator htmlMutator,
    cookieInterceptor := NewCookieInterceptor (fun setCookie =>
      stringsReplaceAll setCookie domainHeader []) }

/-- The fields of an `http.Request` that the program reads and sets. -/
structure Request where
  URL : URL
  Host : List Char

/-- What `ServeHTTP` does with a request: the call
`http.Redirect(w, r, r.URL.String(), code)`, recorded by the URL of the request at
the call and the status code, or the proxied exchange, recorded by the request
that is handed to the forwarder.  In the exchange the forwarder writes into an
`HTMLMutatorWriter` made around a `cookieInterceptorWriter` made around the
writer of the request, and `ApplyHTML` finalizes it. -/
inductive Served where
  | redirect (url : URL) (code : Nat)
  | proxied (r : Request)

/-- The constant `http.StatusMovedPermanently`. -/
def StatusMovedPermanently : Nat := 301

/-- The method `ReverseProxy.ServeHTTP`: a request whose path starts with the
path of the target is redirected to the path trimmed; any other request is
proxied with the host of the target. -/
def ReverseProxy.ServeHTTP (rp : ReverseProxy) (r : Request) : Served :=
  if rp.targetURL.Path.isPrefixOf r.URL.Path then
    let r := { r with URL := { r.URL with Path := stringsTrimPrefix r.URL.Path rp.targetURL.Path } }
    .redirect r.URL StatusMovedPermanently
  else
    let r := { r with Host := rp.targetURL.Host }
    .proxied r

/-! ## `main.go` -/

/-- The value `githubRoot.String()` for the URL with scheme `https` and host
`github.com`. -/
def githubRoot : List Char := "https://github.com".toList

/-- The path of `githubURL`: `"/" + username`. -/
def githubURLPath (username : List Char) : List Char := '/' :: username

/-- The closure `linkReplacer` of `main`: replaces a hyperlink with the
appropriate proxied one. -/
def linkReplacer (username : List Char) (link : List Char) : List Char :=
  -- Trim the GitHub domain for the code below to work.
  let link := stringsTrimPrefix link githubRoot
  -- Don't handle links that are not relative.
  match link with
  | [] => link
  | c :: _ =>
    if c ≠ '/' then link
    -- Any link that does NOT go to our profile MUST go to the official GitHub page.
    else if !(githubURLPath username).isPrefixOf link then
      "https://github.com".toList ++ link
    else
      -- Keep using our proxy otherwise.
      let link := stringsTrimPrefix link (githubURLPath username)
      if link = [] then "/".toList else link

/-- A name without pattern metacharacters: letters, digits, `-` and `_`.  For
such a tag or attribute name the pattern built by `fmt.Sprintf` contains the
name as a literal. -/
def plainName (name : List Char) : Bool :=
  name.all (fun c => c.isAlphanum || c == '-' || c == '_')

/-! ## Concrete inputs used below -/

/-- A rewrite function that sends `/a` to `/b` and `/b` to `/c`. -/
def shiftLink (v : List Char) : List Char :=
  if v = "/a".toList then "/b".toList
  else if v = "/b".toList then "/c".toList
  else v

/-- A reader for the toy streams below: a stream is its mark followed by the
data in reverse. -/
def toyReadAll (mark : Char) (stream : List Char) : Except Error (List Char) :=
  match stream with
  | [] => .error (.collaborator "unexpected EOF".toList)
  | c :: data =>
    if c = mark then .ok data.reverse else .error (.collaborator "bad header".toList)

/-- Codecs for the concrete inputs: a gzip stream is `g` followed by the data in
reverse (the mark is written first, the data at the close), a deflate stream is
`d` followed by the data in reverse, written at once. -/
def toyCodecs : Codecs :=
  { gzipNewReader := fun stream =>
      match stream with
      | [] => some (.collaborator "EOF".toList)
      | c :: _ => if c = 'g' then none else some (.collaborator "bad header".toList),
    gzipReadAll := toyReadAll 'g',
    flateReadAll := toyReadAll 'd',
    gzipWriter := { onWrite := fun _ => ['g'], onClose := fun body => body.reverse },
    flateWriter := { onWrite := fun body => 'd' :: body.reverse, onClose := fun _ => [] } }

/-- A header map with one key. -/
def oneHeader (key : List Char) (values : List (List Char)) : Header :=
  fun k => if k = key then some values else none

/-- A writer to which nothing was written yet, with the given header map, on a
connection that takes every byte. -/
def freshWriter (header : Header) : ResponseWriter :=
  { header := header, statusCodes := [], body := [], flushes := 0, failure := none }

/-- A writer to which nothing was written yet, on a connection that the client has
closed. -/
def brokenWriter (header : Header) : ResponseWriter :=
  { freshWriter header with failure := some (0, .collaborator "broken pipe".toList) }

/-- A header map with a content length and a content type. -/
def sampleHeader : Header :=
  fun k =>
    if k = "Content-Length".toList then some ["5".toList]
    else if k = "Content-Type".toList then some ["text/html".toList]
    else none

/-! ## Lemmas on the matcher and the loops -/

/-! ### The matcher on the pieces of the patterns -/

/-- A literal matches when it is a prefix of the input, and the rest goes on. -/
theorem matchK_str_append {R : Type} (l t : List Char) (k : List Char → Option R) :
    matchK (.str l) (l ++ t) k = k t := by
  induction l with
  | nil => rfl
  | cons c l ih => simpa [Regex.str, matchK] using ih

/-- A literal that is not a prefix of the input does not match. -/
theorem matchK_str_none {R : Type} (l s : List Char) (k : List Char → Option R)
    (h : ¬ l <+: s) : matchK (.str l) s k = none := by
  induction l generalizing s with
  | nil => exact absurd (List.nil_prefix) h
  | cons c l ih =>
    cases s with
    | nil => simp [Regex.str, matchK]
    | cons x t =>
      by_cases hx : x = c
      · subst hx
        have : ¬ l <+: t := fun hp => h ((List.prefix_cons_inj x).2 hp)
        simpa [Regex.str, matchK] using ih t this
      · simp [Regex.str, matchK, hx]

/-- A lazy repetition on the empty input stops. -/
theorem lazyStar_nil {R : Type} (r : Regex) (k : List Char → Option R) :
    matchK (.star false r) [] k = k [] := rfl

/-- The lazy run of spaces: stop here if the rest of the pattern matches, else take one
more space. -/
theorem lazySpaces_cons {R : Type} (x : Char) (t : List Char) (k : List Char → Option R) :
    matchK (.star false (.chr ' ')) (x :: t) k
      = (k (x :: t)).orElse
          (fun _ => if x = ' ' then matchK (.star false (.chr ' ')) t k else none) := by
  simp [matchK, starK]

/-- The group `(.|\n)` takes any one character. -/
theorem matchK_any_cons {R : Type} (x : Char) (t : List Char) (k : List Char → Option R) :
    matchK (.alt .dot (.chr '\n')) (x :: t) k = k t := by
  by_cases hx : x = '\n'
  · simp [matchK, hx]
  · cases hk : k t <;> simp [matchK, hx, hk]

/-- The lazy repetition of `(.|\n)`: stop here if the rest of the pattern matches, else
take one more character. -/
theorem lazyAny_cons {R : Type} (x : Char) (t : List Char) (k : List Char → Option R) :
    matchK (.star false (.alt .dot (.chr '\n'))) (x :: t) k
      = (k (x :: t)).orElse (fun _ => matchK (.star false (.alt .dot (.chr '\n'))) t k) := by
  have h : matchK (.star false (.alt .dot (.chr '\n'))) (x :: t) k
      = (k (x :: t)).orElse (fun _ => matchK (.alt .dot (.chr '\n')) (x :: t)
          (fun s1 => if s1.length < (x :: t).length
            then starK (matchK (.alt .dot (.chr '\n'))) false t.length s1 k else none)) := rfl
  rw [h, matchK_any_cons]
  simp [matchK]

/-- The greedy `.*` on the empty input stops. -/
theorem greedyDot_nil {R : Type} (k : List Char → Option R) :
    matchK (.star true .dot) [] k = k [] := rfl

/-- The greedy `.*`: go on over a character that is not a newline, and come back to
this position when the rest of the pattern does not match further on. -/
theorem greedyDot_cons {R : Type} (x : Char) (t : List Char) (k : List Char → Option R) :
    matchK (.star true .dot) (x :: t) k
      = if x = '\n' then k (x :: t)
        else (matchK (.star true .dot) t k).orElse (fun _ => k (x :: t)) := by
  by_cases hx : x = '\n'
  · simp [matchK, starK, hx]
  · simp [matchK, starK, hx]

/-! ### A match consumes a prefix of the input -/

/-- A repetition hands a suffix of its input to the continuation. -/
theorem starK_suffix {R : Type} (step : List Char → (List Char → Option R) → Option R)
    (hstep : ∀ s k v, step s k = some v → ∃ s1, s1 <:+ s ∧ k s1 = some v)
    (greedy : Bool) (n : Nat) :
    ∀ s k v, starK step greedy n s k = some v → ∃ s1, s1 <:+ s ∧ k s1 = some v := by
  induction n with
  | zero => intro s k v h; exact ⟨s, List.suffix_refl s, h⟩
  | succ n ih =>
    intro s k v h
    have hmore : ∀ v, step s (fun s1 => if s1.length < s.length
        then starK step greedy n s1 k else none) = some v → ∃ s1, s1 <:+ s ∧ k s1 = some v := by
      intro v hv
      obtain ⟨s1, hs1, hk⟩ := hstep _ _ _ hv
      by_cases hlt : s1.length < s.length
      · simp only [hlt, if_true] at hk
        obtain ⟨s2, hs2, hk2⟩ := ih _ _ _ hk
        exact ⟨s2, hs2.trans hs1, hk2⟩
      · simp [hlt] at hk
    cases greedy with
    | true =>
      simp only [starK, if_true] at h
      cases hm : step s (fun s1 => if s1.length < s.length
          then starK step true n s1 k else none) with
      | some w =>
        rw [hm] at h
        simp only [Option.orElse, Option.some.injEq] at h
        subst h
        exact hmore w hm
      | none =>
        rw [hm] at h
        simp only [Option.orElse] at h
        exact ⟨s, List.suffix_refl s, h⟩
    | false =>
      simp only [starK, Bool.false_eq_true, if_false] at h
      cases hk : k s with
      | some w =>
        rw [hk] at h
        simp only [Option.orElse, Option.some.injEq] at h
        subst h
        exact ⟨s, List.suffix_refl s, hk⟩
      | none =>
        rw [hk] at h
        simp only [Option.orElse] at h
        exact hmore v h

/-- A successful match hands a suffix of the input to the continuation: the
matched text is a prefix of the input. -/
theorem matchK_suffix {R : Type} (r : Regex) :
    ∀ (s : List Char) (k : List Char → Option R) (v : R),
      matchK r s k = some v → ∃ s1, s1 <:+ s ∧ k s1 = some v := by
  induction r with
  | eps => intro s k v h; exact ⟨s, List.suffix_refl s, h⟩
  | chr c =>
    intro s k v h
    cases s with
    | nil => simp [matchK] at h
    | cons x t =>
      by_cases hx : x = c
      · simp [matchK, hx] at h; exact ⟨t, List.suffix_cons x t, h⟩
      · simp [matchK, hx] at h
  | dot =>
    intro s k v h
    cases s with
    | nil => simp [matchK] at h
    | cons x t =>
      by_cases hx : x = '\n'
      · simp [matchK, hx] at h
      · simp [matchK, hx] at h; exact ⟨t, List.suffix_cons x t, h⟩
  | notChr c =>
    intro s k v h
    cases s with
    | nil => simp [matchK] at h
    | cons x t =>
      by_cases hx : x = c
      · simp [matchK, hx] at h
      · simp [matchK, hx] at h; exact ⟨t, List.suffix_cons x t, h⟩
  | cat a b iha ihb =>
    intro s k v h
    obtain ⟨s1, hs1, h1⟩ := iha s _ v h
    obtain ⟨s2, hs2, h2⟩ := ihb s1 k v h1
    exact ⟨s2, hs2.trans hs1, h2⟩
  | alt a b iha ihb =>
    intro s k v h
    simp only [matchK] at h
    cases ha : matchK a s k with
    | some w =>
      rw [ha] at h
      simp only [Option.orElse] at h
      exact iha s k v (by rw [ha, h])
    | none =>
      rw [ha] at h
      simp only [Option.orElse] at h
      exact ihb s k v h
  | star greedy r ih =>
    intro s k v h
    exact starK_suffix (matchK r) ih greedy s.length s k v h

/-- The same for a sequence of groups. -/
theorem matchGroups_suffix {R : Type} (rs : List Regex) :
    ∀ (s : List Char) (k : List (List Char) → List Char → Option R) (v : R),
      matchGroups rs s k = some v → ∃ gs rest, rest <:+ s ∧ k gs rest = some v := by
  induction rs with
  | nil => intro s k v h; exact ⟨[], s, List.suffix_refl s, h⟩
  | cons r rs ih =>
    intro s k v h
    obtain ⟨s1, hs1, h1⟩ := matchK_suffix r s _ v h
    obtain ⟨gs, rest, hrest, h2⟩ := ih s1 _ v h1
    exact ⟨_, rest, hrest.trans hs1, h2⟩

/-- The text before a suffix, followed by the suffix, is the whole text. -/
theorem take_of_suffix (s rest : List Char) (h : rest <:+ s) :
    s.take (s.length - rest.length) ++ rest = s := by
  obtain ⟨t, rfl⟩ := h
  have : (t ++ rest).length - rest.length = t.length := by simp
  rw [this, List.take_left]

/-- A match at the start of the input splits it into the matched text and the rest. -/
theorem matchHere_split (rs : List Regex) (s : List Char) (m : Found)
    (h : matchHere rs s = some m) : m.before = [] ∧ s = m.whole ++ m.after := by
  obtain ⟨gs, rest, hrest, hk⟩ := matchGroups_suffix rs s _ m h
  simp only [Option.some.injEq] at hk
  subst hk
  exact ⟨rfl, (take_of_suffix s rest hrest).symm⟩

/-- A match found by the search splits the input into three parts. -/
theorem search_split (rs : List Regex) (s : List Char) :
    ∀ m, search rs s = some m → s = m.before ++ m.whole ++ m.after := by
  induction s with
  | nil =>
    intro m h
    obtain ⟨hb, hs⟩ := matchHere_split rs [] m h
    rw [hb]; simpa using hs
  | cons c t ih =>
    intro m h
    simp only [search] at h
    cases hm : matchHere rs (c :: t) with
    | some m1 =>
      rw [hm] at h
      simp only [Option.some.injEq] at h
      subst h
      obtain ⟨hb, hs⟩ := matchHere_split rs (c :: t) m1 hm
      rw [hb]; simpa using hs
    | none =>
      rw [hm] at h
      simp only [Option.map_eq_some'] at h
      obtain ⟨m2, hm2, rfl⟩ := h
      have := ih m2 hm2
      simp [this]

/-- A match at the very start is the one the search finds. -/
theorem search_of_matchHere (rs : List Regex) (s : List Char) (m : Found)
    (h : matchHere rs s = some m) : search rs s = some m := by
  cases s with
  | nil => exact h
  | cons c t => simp [search, h]

/-- The search passes over a prefix in which no position starts a match. -/
theorem search_skip (rs : List Regex) (u X : List Char)
    (h : ∀ a b, u = a ++ b → b ≠ [] → matchHere rs (b ++ X) = none) :
    search rs (u ++ X) = (search rs X).map (fun m => { m with before := u ++ m.before }) := by
  induction u with
  | nil =>
    show search rs X = _
    cases search rs X <;> rfl
  | cons c u ih =>
    have h0 : matchHere rs (c :: u ++ X) = none := h [] (c :: u) rfl (by simp)
    have ih1 := ih (fun a b hab hb => h (c :: a) b (by simp [hab]) hb)
    simp only [List.cons_append] at h0 ⊢
    simp only [search, h0, ih1]
    cases hs : search rs X <;> simp

/-- When no position starts a match the search finds nothing. -/
theorem search_none_of_suffixes (rs : List Regex) (s : List Char)
    (h : ∀ t, t <:+ s → matchHere rs t = none) : search rs s = none := by
  induction s with
  | nil => exact h [] (List.suffix_refl _)
  | cons c t ih =>
    have h0 := h (c :: t) (List.suffix_refl _)
    have ih1 := ih (fun t1 ht1 => h t1 (ht1.trans (List.suffix_cons c t)))
    simp [search, h0, ih1]

/-! ### The replacement loop -/

/-- Without a match the loop returns the text. -/
theorem replaceAllFuel_of_none (re : Regex) (repl : List Char) (n : Nat) (s : List Char)
    (h : search [re] s = none) : replaceAllFuel re repl n s = s := by
  cases n with
  | zero => rfl
  | succ n => simp [replaceAllFuel, h]

/-- The loop on the empty text. -/
theorem replaceAllFuel_nil (re : Regex) (repl : List Char) (n : Nat) :
    replaceAllFuel re repl n [] = [] := by
  cases n with
  | zero => rfl
  | succ n =>
    cases hsr : search [re] [] with
    | none => simp [replaceAllFuel, hsr]
    | some m =>
      have hsplit := search_split [re] [] m hsr
      have hw : m.whole = [] := by
        have := congrArg List.length hsplit
        simp only [List.length_append, List.length_nil] at this
        exact List.eq_nil_of_length_eq_zero (by omega)
      simp [replaceAllFuel, hsr, hw]

/-- Fuel beyond the length of the text does not change the result of the loop. -/
theorem replaceAllFuel_fuel (re : Regex) (repl : List Char) :
    ∀ (n m : Nat) (s : List Char), s.length ≤ n → s.length ≤ m →
      replaceAllFuel re repl n s = replaceAllFuel re repl m s := by
  intro n
  induction n with
  | zero =>
    intro m s hn _
    have : s = [] := List.eq_nil_of_length_eq_zero (Nat.le_zero.mp hn)
    subst this
    rw [replaceAllFuel_nil, replaceAllFuel_nil]
  | succ n ih =>
    intro m s hn hm
    cases m with
    | zero =>
      have : s = [] := List.eq_nil_of_length_eq_zero (Nat.le_zero.mp hm)
      subst this
      rw [replaceAllFuel_nil, replaceAllFuel_nil]
    | succ m =>
      cases hsr : search [re] s with
      | none => simp [replaceAllFuel, hsr]
      | some f =>
        by_cases hw : f.whole = []
        · simp [replaceAllFuel, hsr, hw]
        · have hsplit := search_split [re] s f hsr
          have hlen : f.after.length < s.length := by
            have := congrArg List.length hsplit
            simp only [List.length_append] at this
            have hpos : 0 < f.whole.length := List.length_pos.mpr hw
            omega
          simp only [replaceAllFuel, hsr, hw, if_false]
          rw [ih m f.after (by omega) (by omega)]

/-- One round of the loop of `ReplaceAll`. -/
theorem ReplaceAll_step (re : Regex) (repl s : List Char) (f : Found)
    (h : search [re] s = some f) (hw : f.whole ≠ []) :
    ReplaceAll re s repl = f.before ++ expand repl [f.whole] ++ ReplaceAll re f.after repl := by
  have hsplit := search_split [re] s f h
  have hlen : f.after.length < s.length := by
    have := congrArg List.length hsplit
    simp only [List.length_append] at this
    have hpos : 0 < f.whole.length := List.length_pos.mpr hw
    omega
  unfold ReplaceAll
  cases hl : s.length with
  | zero => omega
  | succ l =>
    simp only [replaceAllFuel, h, hw, if_false]
    rw [replaceAllFuel_fuel re repl l f.after.length f.after (by omega) (Nat.le_refl _)]

/-- Without a match `ReplaceAll` returns the text. -/
theorem ReplaceAll_of_none (re : Regex) (repl s : List Char) (h : search [re] s = none) :
    ReplaceAll re s repl = s :=
  replaceAllFuel_of_none re repl _ s h

/-! ### Templates -/

/-- The empty template expands to nothing. -/
theorem expand_nil (groups : List (List Char)) : expand [] groups = [] := rfl

/-- A template without `$` is copied. -/
theorem expandFuel_no_dollar (groups : List (List Char)) :
    ∀ (n : Nat) (t : List Char), '$' ∉ t → expandFuel n t groups = t := by
  intro n
  induction n with
  | zero => intro t _; rfl
  | succ n ih =>
    intro t ht
    cases t with
    | nil => rfl
    | cons c t =>
      have hc : c ≠ '$' := fun h => ht (by simp [h])
      have ht1 : '$' ∉ t := fun h => ht (by simp [h])
      simp [expandFuel, hc, ih t ht1]

/-- A template without `$` expands to itself. -/
theorem expand_no_dollar (t : List Char) (groups : List (List Char)) (h : '$' ∉ t) :
    expand t groups = t :=
  expandFuel_no_dollar groups _ t h

/-! ### The fuel of the loops -/

/-- A pattern whose continuation always fails does not match. -/
theorem matchK_const_none {R : Type} (r : Regex) (s : List Char) :
    matchK r s (fun _ => (none : Option R)) = none := by
  cases h : matchK r s (fun _ => (none : Option R)) with
  | none => rfl
  | some v =>
    obtain ⟨s1, _, hk⟩ := matchK_suffix r s _ v h
    exact Option.noConfusion hk

/-- The fuel of a repetition is enough: any fuel from the length of the input on
gives the same result. -/
theorem starK_fuel {R : Type} (r : Regex) (greedy : Bool) (k : List Char → Option R) :
    ∀ (n m : Nat) (s : List Char), s.length ≤ n → s.length ≤ m →
      starK (matchK r) greedy n s k = starK (matchK r) greedy m s k := by
  have hnil : ∀ n, starK (matchK r) greedy n [] k = k [] := by
    intro n
    cases n with
    | zero => rfl
    | succ n =>
      have hc : (fun s1 : List Char => if s1.length < ([] : List Char).length
          then starK (matchK r) greedy n s1 k else none) = (fun _ => (none : Option R)) := by
        funext s1; simp
      cases greedy <;> simp only [starK, hc, matchK_const_none] <;> cases k [] <;> rfl
  intro n
  induction n with
  | zero =>
    intro m s hn _
    have : s = [] := List.eq_nil_of_length_eq_zero (Nat.le_zero.mp hn)
    subst this
    rw [hnil, hnil]
  | succ n ih =>
    intro m s hn hm
    cases m with
    | zero =>
      have : s = [] := List.eq_nil_of_length_eq_zero (Nat.le_zero.mp hm)
      subst this
      rw [hnil, hnil]
    | succ m =>
      have hc : (fun s1 : List Char => if s1.length < s.length
          then starK (matchK r) greedy n s1 k else none)
          = (fun s1 : List Char => if s1.length < s.length
          then starK (matchK r) greedy m s1 k else none) := by
        funext s1
        by_cases hlt : s1.length < s.length
        · simp only [hlt, if_true]
          exact ih m s1 (by omega) (by omega)
        · simp [hlt]
      simp only [starK, hc]

/-- The text left by `extract` is shorter than the text it was given. -/
theorem extract_rest_length (str name rest : List Char)
    (h : extract str = some (name, rest)) : rest.length ≤ str.length := by
  cases str with
  | nil => simp [extract] at h
  | cons c t =>
    by_cases hc : c = '\x7b'
    · simp only [extract, hc, if_true] at h
      by_cases hn : t.takeWhile isNameChar = []
      · simp [hn] at h
      · simp only [hn, if_false] at h
        have hle := (List.dropWhile_suffix isNameChar (l := t)).length_le
        cases hd : t.dropWhile isNameChar with
        | nil => simp [hd] at h
        | cons d r =>
          rw [hd] at h hle
          by_cases hdd : d = '\x7d'
          · simp only [hdd, if_true, Option.some.injEq, Prod.mk.injEq] at h
            obtain ⟨_, rfl⟩ := h
            simp only [List.length_cons] at hle ⊢
            omega
          · simp [hdd] at h
    · simp only [extract, hc, if_false] at h
      by_cases hn : (c :: t).takeWhile isNameChar = []
      · simp [hn] at h
      · simp only [hn, if_false, Option.some.injEq, Prod.mk.injEq] at h
        obtain ⟨_, rfl⟩ := h
        exact (List.dropWhile_suffix isNameChar (l := c :: t)).length_le

/-- The fuel of the loop of `expand` is enough. -/
theorem expandFuel_fuel (groups : List (List Char)) :
    ∀ (n m : Nat) (t : List Char), t.length ≤ n → t.length ≤ m →
      expandFuel n t groups = expandFuel m t groups := by
  intro n
  induction n with
  | zero =>
    intro m t hn _
    have : t = [] := List.eq_nil_of_length_eq_zero (Nat.le_zero.mp hn)
    subst this
    cases m <;> rfl
  | succ n ih =>
    intro m t hn hm
    cases t with
    | nil => cases m <;> rfl
    | cons c t =>
      cases m with
      | zero => simp at hm
      | succ m =>
        simp only [List.length_cons] at hn hm
        by_cases hc : c = '$'
        · cases t with
          | nil => simp [expandFuel, hc]
          | cons d t1 =>
            simp only [List.length_cons] at hn hm
            by_cases hd : d = '$'
            · simp only [expandFuel, hc, hd, if_true]
              rw [ih m t1 (by omega) (by omega)]
            · cases he : extract (d :: t1) with
              | none =>
                simp only [expandFuel, hc, hd, he, if_true, if_false]
                rw [ih m (d :: t1) (by simp; omega) (by simp; omega)]
              | some nr =>
                obtain ⟨name, rest⟩ := nr
                have hl := extract_rest_length _ _ _ he
                simp only [List.length_cons] at hl
                simp only [expandFuel, hc, hd, he, if_true, if_false]
                rw [ih m rest (by omega) (by omega)]
        · simp only [expandFuel, hc, if_false]
          rw [ih m t (by omega) (by omega)]

/-- The loop of `FindAllSubmatch` on the empty text. -/
theorem findAllFuel_nil (rs : List Regex) (n : Nat) : findAllFuel rs n [] = [] := by
  cases n with
  | zero => rfl
  | succ n =>
    cases hsr : search rs [] with
    | none => simp [findAllFuel, hsr]
    | some f =>
      have hsplit := search_split rs [] f hsr
      have hw : f.whole = [] := by
        have := congrArg List.length hsplit
        simp only [List.length_append, List.length_nil] at this
        exact List.eq_nil_of_length_eq_zero (by omega)
      simp [findAllFuel, hsr, hw]

/-- The fuel of the loop of `FindAllSubmatch` is enough. -/
theorem findAllFuel_fuel (rs : List Regex) :
    ∀ (n m : Nat) (s : List Char), s.length ≤ n → s.length ≤ m →
      findAllFuel rs n s = findAllFuel rs m s := by
  intro n
  induction n with
  | zero =>
    intro m s hn _
    have : s = [] := List.eq_nil_of_length_eq_zero (Nat.le_zero.mp hn)
    subst this
    rw [findAllFuel_nil, findAllFuel_nil]
  | succ n ih =>
    intro m s hn hm
    cases m with
    | zero =>
      have : s = [] := List.eq_nil_of_length_eq_zero (Nat.le_zero.mp hm)
      subst this
      rw [findAllFuel_nil, findAllFuel_nil]
    | succ m =>
      cases hsr : search rs s with
      | none => simp [findAllFuel, hsr]
      | some f =>
        by_cases hw : f.whole = []
        · simp [findAllFuel, hsr, hw]
        · have hsplit := search_split rs s f hsr
          have hlen : f.after.length < s.length := by
            have := congrArg List.length hsplit
            simp only [List.length_append] at this
            have hpos : 0 < f.whole.length := List.length_pos.mpr hw
            omega
          simp only [findAllFuel, hsr, hw, if_false]
          rw [ih m f.after (by omega) (by omega)]

/-! ### Occurrences of a literal that begins with `<` -/

/-- A literal `<w`, with no `<` in `w`, that does not occur in `u` does not begin
inside `u` when `u` is followed by a `<` either. -/
theorem no_straddle (w u Y : List Char) (hw : '<' ∉ w) (h : ¬ ('<' :: w) <:+: u) :
    ∀ a b, u = a ++ b → b ≠ [] → ¬ ('<' :: w) <+: b ++ '<' :: Y := by
  intro a b hab hb hp
  cases b with
  | nil => exact hb rfl
  | cons x b =>
    rw [List.cons_append, List.cons_prefix_cons] at hp
    obtain ⟨hx, hp⟩ := hp
    subst hx
    have hin : ∀ {l : List Char}, w <+: l → l <+: b → False := by
      intro l hwl hlb
      obtain ⟨r, hr⟩ := hwl.trans hlb
      apply h
      refine ⟨a, r, ?_⟩
      rw [hab, ← hr]; simp
    rcases List.prefix_or_prefix_of_prefix hp (List.prefix_append b _) with h1 | h1
    · exact hin (List.prefix_refl w) h1
    · obtain ⟨r, hr⟩ := h1
      rw [← hr, List.prefix_append_right_inj] at hp
      cases r with
      | nil =>
        rw [List.append_nil] at hr
        exact hin (List.prefix_refl w) (by rw [hr])
      | cons y r =>
        rw [List.cons_prefix_cons] at hp
        apply hw
        rw [← hr, ← hp.1]
        simp

/-- The lazy repetition stops at once when the rest of the pattern matches. -/
theorem lazyAny_hit {R : Type} (s : List Char) (k : List Char → Option R) (v : R)
    (h : k s = some v) : matchK (.star false (.alt .dot (.chr '\n'))) s k = some v := by
  cases s with
  | nil => rw [lazyStar_nil, h]
  | cons x t => rw [lazyAny_cons, h]; rfl

/-- The lazy repetition of `(.|\n)` runs to the first position at which the
closing literal begins. -/
theorem lazyAny_find {R : Type} (cl post : List Char) (g : List Char → R) :
    ∀ hay : List Char, (∀ a b, hay = a ++ b → b ≠ [] → ¬ cl <+: b ++ (cl ++ post)) →
      matchK (.star false (.alt .dot (.chr '\n'))) (hay ++ (cl ++ post))
        (fun s => matchK (.str cl) s (fun r => some (g r))) = some (g post) := by
  intro hay
  induction hay with
  | nil =>
    intro _
    exact lazyAny_hit _ _ _ (matchK_str_append cl post _)
  | cons x hay ih =>
    intro h
    have h0 : matchK (.str cl) (x :: hay ++ (cl ++ post)) (fun r => some (g r)) = none :=
      matchK_str_none _ _ _ (h [] (x :: hay) rfl (by simp))
    rw [List.cons_append] at h0
    rw [List.cons_append, lazyAny_cons, h0]
    exact ih (fun a b hab hb => h (x :: a) b (by simp [hab]) hb)

/-- The pattern of `TagRemover`, piece by piece. -/
theorem tagRemover_unfold {R : Type} (tag s : List Char) (k : List Char → Option R) :
    matchK (tagRemoverRegex tag) s k
      = matchK (.star false (.chr ' ')) s (fun s1 =>
          matchK (.str ('<' :: tag)) s1 (fun s2 =>
            matchK (.alt .dot (.chr '\n')) s2 (fun s3 =>
              matchK (.star false (.alt .dot (.chr '\n'))) s3 (fun s4 =>
                matchK (.str ("</".toList ++ tag ++ ">".toList)) s4 k)))) := rfl

/-- The pattern of `TagRemover` matches at a run of spaces followed by `<TAG`,
at least one character, and the first `</TAG>` after that character. -/
theorem tagRemover_match_here {R : Type} (tag : List Char) (c : Char) (hay post : List Char)
    (g : List Char → R)
    (hhay : ∀ a b, hay = a ++ b → b ≠ [] →
      ¬ ("</".toList ++ tag ++ ">".toList) <+: b ++ (("</".toList ++ tag ++ ">".toList) ++ post))
    (n : Nat) :
    matchK (tagRemoverRegex tag)
      (List.replicate n ' ' ++
        (('<' :: tag) ++ (c :: (hay ++ (("</".toList ++ tag ++ ">".toList) ++ post)))))
      (fun r => some (g r)) = some (g post) := by
  rw [tagRemover_unfold]
  induction n with
  | zero =>
    rw [List.replicate_zero, List.nil_append, List.cons_append, lazySpaces_cons]
    rw [← List.cons_append, matchK_str_append, matchK_any_cons, lazyAny_find _ _ _ _ hhay]
    rfl
  | succ n ih =>
    rw [List.replicate_succ, List.cons_append, lazySpaces_cons]
    rw [matchK_str_none ('<' :: tag) _ _ (by simp)]
    simpa using ih

/-- The pattern of `TagRemover` does not match at a position from which a run of
spaces is not followed by `<TAG`. -/
theorem tagRemover_no_match_here {R : Type} (tag X : List Char) (k : List Char → Option R) :
    ∀ p : List Char, p ≠ [] → p.getLast? ≠ some ' ' →
      (∀ a b, p = a ++ b → b ≠ [] → ¬ ('<' :: tag) <+: b ++ X) →
      matchK (tagRemoverRegex tag) (p ++ X) k = none := by
  intro p
  rw [tagRemover_unfold]
  induction p with
  | nil => intro h; exact absurd rfl h
  | cons x p ih =>
    intro _ hlast hp
    rw [List.cons_append, lazySpaces_cons]
    have h0 := hp [] (x :: p) rfl (by simp)
    rw [List.cons_append] at h0
    rw [matchK_str_none ('<' :: tag) _ _ h0]
    by_cases hx : x = ' '
    · subst hx
      cases p with
      | nil => simp at hlast
      | cons y q =>
        have := ih (by simp) (by simpa using hlast)
          (fun a b hab hb => hp (' ' :: a) b (by simp [hab]) hb)
        simpa using this
    · simp [hx]

/-- A match of the pattern of `TagRemover` needs `<TAG` and `</TAG>` in the
text. -/
theorem tagRemover_match_needs {R : Type} (tag s : List Char) (k : List Char → Option R) (v : R)
    (h : matchK (tagRemoverRegex tag) s k = some v) :
    ('<' :: tag) <:+: s ∧ ("</".toList ++ tag ++ ">".toList) <:+: s := by
  rw [tagRemover_unfold] at h
  obtain ⟨s1, hs1, h1⟩ := matchK_suffix _ _ _ _ h
  have hopen : ('<' :: tag) <+: s1 := by
    by_contra hn
    rw [matchK_str_none _ _ _ hn] at h1
    exact Option.noConfusion h1
  obtain ⟨s2, hs2, h2⟩ := matchK_suffix _ _ _ _ h1
  obtain ⟨s3, hs3, h3⟩ := matchK_suffix _ _ _ _ h2
  obtain ⟨s4, hs4, h4⟩ := matchK_suffix _ _ _ _ h3
  have hclose : ("</".toList ++ tag ++ ">".toList) <+: s4 := by
    by_contra hn
    rw [matchK_str_none _ _ _ hn] at h4
    exact Option.noConfusion h4
  exact ⟨hopen.isInfix.trans hs1.isInfix,
    hclose.isInfix.trans ((((hs4.trans hs3).trans hs2).trans hs1).isInfix)⟩

/-- The match of a pattern without groups at the start of the input. -/
theorem matchHere_single (re : Regex) (s : List Char) :
    matchHere [re] s = matchK re s (fun rest =>
      some { before := [], groups := [s.take (s.length - rest.length)],
             whole := s.take (s.length - rest.length), after := rest }) := rfl

/-- Without `<TAG` or without `</TAG>` in the text the pattern of `TagRemover` matches
at none of its positions. -/
theorem tagRemover_matchK_none {R : Type} (tag s t : List Char) (k : List Char → Option R)
    (h : ¬ ('<' :: tag) <:+: s ∨ ¬ ("</".toList ++ tag ++ ">".toList) <:+: s)
    (ht : t <:+ s) : matchK (tagRemoverRegex tag) t k = none := by
  cases hm : matchK (tagRemoverRegex tag) t k with
  | none => rfl
  | some v =>
    obtain ⟨ho, hc⟩ := tagRemover_match_needs tag t _ v hm
    rcases h with h | h
    · exact absurd (ho.trans ht.isInfix) h
    · exact absurd (hc.trans ht.isInfix) h

/-- Without `<TAG` or without `</TAG>` in the text the search finds nothing. -/
theorem tagRemover_search_none (tag s : List Char)
    (h : ¬ ('<' :: tag) <:+: s ∨ ¬ ("</".toList ++ tag ++ ">".toList) <:+: s) :
    search [tagRemoverRegex tag] s = none := by
  apply search_none_of_suffixes
  intro t ht
  rw [matchHere_single]
  exact tagRemover_matchK_none tag s t _ h ht

/-- A name without metacharacters contains no `<`. -/
theorem plainName_no_lt (tag : List Char) (h : plainName tag = true) : '<' ∉ tag := by
  intro hmem
  have := List.all_eq_true.mp h '<' hmem
  exact absurd this (by decide)

/-- The closing literal, character by character. -/
theorem close_eq (tag : List Char) :
    "</".toList ++ tag ++ ">".toList = '<' :: ('/' :: (tag ++ ['>'])) := rfl

/-- A text is what is left when the spaces at its end are dropped, followed by those
spaces. -/
theorem spaces_decomp (pre : List Char) :
    ∃ p0 n, pre = p0 ++ List.replicate n ' ' ∧ p0.getLast? ≠ some ' '
      ∧ pre.rdropWhile (fun c => c == ' ') = p0 := by
  induction pre using List.reverseRecOn with
  | nil => exact ⟨[], 0, rfl, by simp, by simp⟩
  | append_singleton l x ih =>
    by_cases hx : x = ' '
    · obtain ⟨p0, n, h1, h2, h3⟩ := ih
      refine ⟨p0, n + 1, ?_, h2, ?_⟩
      · rw [List.replicate_succ', ← List.append_assoc, ← h1, hx]
      · rw [List.rdropWhile_concat_pos _ _ _ (by simp [hx]), h3]
    · refine ⟨l ++ [x], 0, by simp, ?_, ?_⟩
      · simp [hx]
      · rw [List.rdropWhile_concat_neg _ _ _ (by simp [hx])]

/-- One removal: up to the first `<TAG` of the document nothing matches, the
span from the spaces before it to the first `</TAG>` is cut out, and the loop
goes on after it. -/
theorem TagRemover_step (tag pre a post : List Char) (htag : '<' ∉ tag)
    (hpre : ¬ ('<' :: tag) <:+: pre) (ha : a ≠ [])
    (hclose : ¬ ("</".toList ++ tag ++ ">".toList) <:+: a) :
    TagRemover tag (pre ++ ('<' :: tag) ++ a ++ ("</".toList ++ tag ++ ">".toList) ++ post)
      = pre.rdropWhile (fun c => c == ' ') ++ TagRemover tag post := by
  obtain ⟨p0, n, hpre_eq, hlast, hdrop⟩ := spaces_decomp pre
  cases a with
  | nil => exact absurd rfl ha
  | cons c hay =>
    have hhay : ∀ a b, hay = a ++ b → b ≠ [] →
        ¬ ("</".toList ++ tag ++ ">".toList) <+:
          b ++ (("</".toList ++ tag ++ ">".toList) ++ post) := by
      have hw : '<' ∉ '/' :: (tag ++ ['>']) := by
        simp only [List.mem_cons, List.mem_append, List.mem_singleton, not_or]
        exact ⟨by decide, htag, by decide, List.not_mem_nil _⟩
      have hno : ¬ ('<' :: ('/' :: (tag ++ ['>']))) <:+: hay := fun hi =>
        hclose ((close_eq tag) ▸ (hi.trans (List.infix_cons (List.infix_refl hay))))
      intro a b hab hb
      have := no_straddle _ hay (('/' :: (tag ++ ['>'])) ++ post) hw hno a b hab hb
      rw [close_eq]
      simpa using this
    -- the text from the spaces on
    have hX : pre ++ ('<' :: tag) ++ (c :: hay) ++ ("</".toList ++ tag ++ ">".toList) ++ post
        = p0 ++ (List.replicate n ' ' ++
            (('<' :: tag) ++ (c :: (hay ++ (("</".toList ++ tag ++ ">".toList) ++ post))))) := by
      rw [hpre_eq]; simp
    have hW : List.replicate n ' ' ++
          (('<' :: tag) ++ (c :: (hay ++ (("</".toList ++ tag ++ ">".toList) ++ post))))
        = (List.replicate n ' ' ++ ('<' :: tag) ++ (c :: hay)
            ++ ("</".toList ++ tag ++ ">".toList)) ++ post := by simp
    have hhere : matchHere [tagRemoverRegex tag] (List.replicate n ' ' ++
          (('<' :: tag) ++ (c :: (hay ++ (("</".toList ++ tag ++ ">".toList) ++ post)))))
        = some { before := [],
                 groups := [List.replicate n ' ' ++ ('<' :: tag) ++ (c :: hay)
                    ++ ("</".toList ++ tag ++ ">".toList)],
                 whole := List.replicate n ' ' ++ ('<' :: tag) ++ (c :: hay)
                    ++ ("</".toList ++ tag ++ ">".toList),
                 after := post } := by
      rw [matchHere_single, tagRemover_match_here tag c hay post _ hhay n, hW]
      have hl : ∀ W : List Char, (W ++ post).length - post.length = W.length := by
        intro W; simp
      rw [hl, List.take_left]
    have hskip : ∀ a b, p0 = a ++ b → b ≠ [] →
        matchHere [tagRemoverRegex tag] (b ++ (List.replicate n ' ' ++
          (('<' :: tag) ++ (c :: (hay ++ (("</".toList ++ tag ++ ">".toList) ++ post))))))
          = none := by
      intro a b hab hb
      rw [matchHere_single]
      apply tagRemover_no_match_here tag _ _ b hb
      · rw [hab, List.getLast?_append_of_ne_nil _ hb] at hlast
        exact hlast
      · intro a1 b1 hab1 hb1
        have := no_straddle tag pre
          (tag ++ (c :: (hay ++ (("</".toList ++ tag ++ ">".toList) ++ post)))) htag hpre
          (a ++ a1) (b1 ++ List.replicate n ' ')
          (by rw [hpre_eq, hab, hab1]; simp) (by simp [hb1])
        simpa using this
    have hsearch := search_skip [tagRemoverRegex tag] p0 _ hskip
    rw [search_of_matchHere _ _ _ hhere] at hsearch
    simp only [Option.map_some', List.append_nil] at hsearch
    unfold TagRemover
    rw [hX, ReplaceAll_step _ _ _ _ hsearch (by simp), expand_nil, hdrop]
    simp

/-- Without `<TAG` or without `</TAG>` in the document `TagRemover` changes nothing. -/
theorem TagRemover_of_absent (tag s : List Char)
    (h : ¬ ('<' :: tag) <:+: s ∨ ¬ ("</".toList ++ tag ++ ">".toList) <:+: s) :
    TagRemover tag s = s :=
  ReplaceAll_of_none _ _ _ (tagRemover_search_none tag s h)

/-! ### Patterns that begin with a literal -/

/-- A pattern that begins with a literal finds nothing in a text without the literal. -/
theorem search_none_of_literal (rs : List Regex) (l s : List Char)
    (hrs : ∀ t, ¬ l <+: t → matchHere rs t = none) (h : ¬ l <:+: s) :
    search rs s = none :=
  search_none_of_suffixes rs s (fun t ht => hrs t (fun hp => h (hp.isInfix.trans ht.isInfix)))

/-- The pattern `<body.*>` needs `<body` at the position. -/
theorem bodyOpening_here_none (t : List Char) (h : ¬ "<body".toList <+: t) :
    matchHere [bodyOpeningRegex] t = none := by
  rw [matchHere_single]
  exact matchK_str_none _ _ _ h

/-- The pattern `<head.*>` needs `<head` at the position. -/
theorem headOpening_here_none (t : List Char) (h : ¬ "<head".toList <+: t) :
    matchHere [headOpeningRegex] t = none := by
  rw [matchHere_single]
  exact matchK_str_none _ _ _ h

/-- The pattern `</head>` needs `</head>` at the position. -/
theorem headClosing_here_none (t : List Char) (h : ¬ "</head>".toList <+: t) :
    matchHere [headClosingRegex] t = none := by
  rw [matchHere_single]
  exact matchK_str_none _ _ _ h

/-- The pattern of `TagAttrReplace` needs `<TAG` at the position. -/
theorem tagAttr_here_none (tag attr t : List Char) (h : ¬ ('<' :: tag) <+: t) :
    matchHere (tagAttrRegex tag attr) t = none :=
  matchK_str_none ('<' :: tag) t _ h

/-- Without a match `FindAllSubmatch` returns nil. -/
theorem FindAllSubmatch_of_none (rs : List Regex) (s : List Char) (h : search rs s = none) :
    FindAllSubmatch rs s = [] := by
  unfold FindAllSubmatch
  cases s.length <;> simp [findAllFuel, h]

/-- Without a match `TagAttrReplace` returns the document. -/
theorem TagAttrReplace_of_none (tag attr : List Char) (replacer : List Char → List Char)
    (s : List Char) (h : search (tagAttrRegex tag attr) s = none) :
    TagAttrReplace tag attr replacer s = s := by
  simp [TagAttrReplace, FindAllSubmatch_of_none _ _ h]

/-! ### The greedy `.*>` of the opening-tag patterns -/

/-- In the rest of a line without `>` the pattern `.*>` does not match. -/
theorem greedyDot_fail {R : Type} (K : List Char → Option R) (post : List Char)
    (hpost : post = [] ∨ ∃ p, post = '\n' :: p) :
    ∀ T : List Char, '>' ∉ T →
      matchK (.star true .dot) (T ++ post) (fun s => matchK (.chr '>') s K) = none := by
  intro T
  induction T with
  | nil =>
    intro _
    rcases hpost with h | ⟨p, h⟩
    · subst h
      rw [List.nil_append, greedyDot_nil]
      rfl
    · subst h
      rw [List.nil_append, greedyDot_cons, if_pos rfl]
      simp [matchK]
  | cons x T ih =>
    intro hT
    have hx : x ≠ '>' := fun h => hT (by simp [h])
    have hT1 : '>' ∉ T := fun h => hT (by simp [h])
    rw [List.cons_append, greedyDot_cons, ih hT1]
    by_cases hn : x = '\n' <;> simp [hn, matchK, hx]

/-- The greedy pattern `.*>` runs to the last `>` of the line. -/
theorem greedyDot_line {R : Type} (g : List Char → R) (T post : List Char) (hT : '>' ∉ T)
    (hpost : post = [] ∨ ∃ p, post = '\n' :: p) :
    ∀ L : List Char, '\n' ∉ L →
      matchK (.star true .dot) (L ++ '>' :: (T ++ post))
        (fun s => matchK (.chr '>') s (fun r => some (g r))) = some (g (T ++ post)) := by
  intro L
  induction L with
  | nil =>
    intro _
    rw [List.nil_append, greedyDot_cons, greedyDot_fail _ post hpost T hT]
    simp [matchK]
  | cons x L ih =>
    intro hL
    have hx : x ≠ '\n' := fun h => hL (by simp [h])
    have hL1 : '\n' ∉ L := fun h => hL (by simp [h])
    rw [List.cons_append, greedyDot_cons, ih hL1]
    simp [hx]

/-- The pattern `<head.*>`, piece by piece. -/
theorem headOpening_unfold {R : Type} (s : List Char) (k : List Char → Option R) :
    matchK headOpeningRegex s k
      = matchK (.str "<head".toList) s (fun s1 =>
          matchK (.star true .dot) s1 (fun s2 => matchK (.chr '>') s2 k)) := rfl

/-- Without `<head` in the document `ExternScriptInjector` changes nothing. -/
theorem ExternScriptInjector_of_absent (src s : List Char) (h : ¬ "<head".toList <:+: s) :
    ExternScriptInjector src s = s :=
  ReplaceAll_of_none _ _ _ (search_none_of_literal _ _ _ headOpening_here_none h)

/-- One injection: up to the first `<head` of the document nothing matches, and
the text from there to the last `>` of the line is replaced. -/
theorem ExternScriptInjector_step (src pre L T post : List Char) (hsrc : '$' ∉ src)
    (hpre : ¬ "<head".toList <:+: pre) (hL : '\n' ∉ L) (hT : '>' ∉ T)
    (hpost : post = [] ∨ ∃ p, post = '\n' :: p)
    (hrest : ¬ "<head".toList <:+: T ++ post) :
    ExternScriptInjector src (pre ++ "<head".toList ++ L ++ '>' :: (T ++ post))
      = pre ++ ("<head>\n\n".toList ++ "<script src=\"".toList ++ src ++ "\"></script>".toList)
          ++ (T ++ post) := by
  have hhere : matchHere [headOpeningRegex] ("<head".toList ++ (L ++ '>' :: (T ++ post)))
      = some { before := [], groups := ["<head".toList ++ L ++ ['>']],
               whole := "<head".toList ++ L ++ ['>'], after := T ++ post } := by
    rw [matchHere_single]
    have hm : ∀ (R : Type) (g : List Char → R),
        matchK headOpeningRegex ("<head".toList ++ (L ++ '>' :: (T ++ post)))
          (fun r => some (g r)) = some (g (T ++ post)) := by
      intro R g
      rw [headOpening_unfold, matchK_str_append]
      exact greedyDot_line g T post hT hpost L hL
    rw [hm]
    have hW : "<head".toList ++ (L ++ '>' :: (T ++ post))
        = ("<head".toList ++ L ++ ['>']) ++ (T ++ post) := by simp
    have hl : ∀ W : List Char, (W ++ (T ++ post)).length - (T ++ post).length = W.length := by
      intro W; simp
    rw [hW, hl, List.take_left]
  have hskip : ∀ a b, pre = a ++ b → b ≠ [] →
      matchHere [headOpeningRegex] (b ++ ("<head".toList ++ (L ++ '>' :: (T ++ post)))) = none := by
    intro a b hab hb
    apply headOpening_here_none
    exact no_straddle "head".toList pre ("head".toList ++ (L ++ '>' :: (T ++ post)))
      (by decide) hpre a b hab hb
  have hsearch := search_skip [headOpeningRegex] pre _ hskip
  rw [search_of_matchHere _ _ _ hhere] at hsearch
  simp only [Option.map_some', List.append_nil] at hsearch
  have hdollar : '$' ∉ "<head>\n\n".toList ++ "<script src=\"".toList ++ src
      ++ "\"></script>".toList := by
    simp only [List.mem_append, not_or]
    exact ⟨⟨⟨by decide, by decide⟩, hsrc⟩, by decide⟩
  have hX : pre ++ "<head".toList ++ L ++ '>' :: (T ++ post)
      = pre ++ ("<head".toList ++ (L ++ '>' :: (T ++ post))) := by simp
  unfold ExternScriptInjector
  rw [hX, ReplaceAll_step _ _ _ _ hsearch (by simp), expand_no_dollar _ _ hdollar,
    ReplaceAll_of_none _ _ _ (search_none_of_literal _ _ _ headOpening_here_none hrest)]

/-- A literal that begins with `<` does not begin inside a text without `<`. -/
theorem not_infix_append_of_no_lt (w u l : List Char) (hu : '<' ∉ u)
    (h : ¬ ('<' :: w) <:+: l) : ¬ ('<' :: w) <:+: u ++ l := by
  induction u with
  | nil => simpa using h
  | cons x u ih =>
    have hx : x ≠ '<' := fun e => hu (by simp [e])
    have hu1 : '<' ∉ u := fun e => hu (by simp [e])
    rw [List.cons_append, List.infix_cons_iff]
    rintro (hp | hi)
    · rw [List.cons_prefix_cons] at hp
      exact hx hp.1.symm
    · exact ih hu1 hi

/-! ## The claims -/

/-- C1 (evaluation at the failing input): on the document
`<a href="/a"> <a href="/b">`, with a rewrite function that sends `/a` to `/b`
and `/b` to `/c`, `AnchorReplace` returns `<a href="/c"> <a href="/b">`: the
second pass replaces the first occurrence of the matched text, which by then is
the first tag already rewritten, and the second tag keeps its value. -/
theorem AnchorReplace_rewrites_first_tag_twice :
    AnchorReplace shiftLink "<a href=\"/a\"> <a href=\"/b\">".toList
      = "<a href=\"/c\"> <a href=\"/b\">".toList := by
  decide

/-- C2 (counterexample): a space directly before the span is outside the span and
is removed with it. -/
theorem TagRemover_div_eats_leading_space :
    TagRemover "div".toList ("a ".toList ++ "<div id=\"x\">b</div>".toList ++ "c".toList)
        = "ac".toList
    ∧ TagRemover "div".toList ("a ".toList ++ "<div id=\"x\">b</div>".toList ++ "c".toList)
        ≠ "a ".toList ++ "c".toList := by
  decide

/-- C2 (amended): in a document `pre ++ <div id="x"> ++ inner ++ </div> ++ post`
where `pre` and `post` contain no `<div` and `inner` contains no `</div>`,
`TagRemover("div")` removes the span together with the run of spaces directly
before it; every other byte of the document is kept. -/
theorem TagRemover_div_removes_span (pre inner post : List Char)
    (hpre : ¬ "<div".toList <:+: pre) (hinner : ¬ "</div>".toList <:+: inner)
    (hpost : ¬ "<div".toList <:+: post) :
    TagRemover "div".toList
        (pre ++ "<div id=\"x\">".toList ++ inner ++ "</div>".toList ++ post)
      = pre.rdropWhile (fun c => c == ' ') ++ post := by
  have hclose : ¬ ("</".toList ++ "div".toList ++ ">".toList) <:+: " id=\"x\">".toList ++ inner :=
    not_infix_append_of_no_lt _ _ _ (by decide) hinner
  have hstep := TagRemover_step "div".toList pre (" id=\"x\">".toList ++ inner) post
    (by decide) hpre (by simp) hclose
  have hdoc : pre ++ "<div id=\"x\">".toList ++ inner ++ "</div>".toList ++ post
      = pre ++ ('<' :: "div".toList) ++ (" id=\"x\">".toList ++ inner)
          ++ ("</".toList ++ "div".toList ++ ">".toList) ++ post := by
    simp only [List.append_assoc]
    rfl
  rw [hdoc, hstep, TagRemover_of_absent "div".toList post (Or.inl hpost)]

/-- C2 (witness): the amended statement at a document with spaces before the span. -/
theorem TagRemover_div_removes_span_witness :
    TagRemover "div".toList
        ("<p>a</p>  ".toList ++ "<div id=\"x\">".toList ++ "<b>c</b>".toList ++ "</div>".toList
          ++ "<i>d</i>".toList)
      = "<p>a</p><i>d</i>".toList :=
  TagRemover_div_removes_span "<p>a</p>  ".toList "<b>c</b>".toList "<i>d</i>".toList
    (by decide) (by decide) (by decide)

/-- C3 (counterexample): with two disjoint spans in the document both are
deleted by one invocation; the second is not left in the output. -/
theorem TagRemover_deletes_second_span_too :
    TagRemover "div".toList "<div>x</div> y <div>z</div>".toList = " y".toList
    ∧ ¬ "<div>z</div>".toList <:+: TagRemover "div".toList "<div>x</div> y <div>z</div>".toList := by
  decide

/-- C3 (amended): one invocation of `TagRemover(tag)` deletes every span, from
left to right.  For a tag name without metacharacters and a document with two
disjoint spans `<tag` ... `</tag>` (nothing else in it contains `<tag`, and the
text of a span between `<tag` and its `</tag>` is not empty and contains no
`</tag>`), both spans are deleted, each together with the run of spaces directly
before its `<`, and the rest of the document is kept. -/
theorem TagRemover_deletes_every_span (tag pre a1 mid a2 post : List Char)
    (htag : plainName tag = true)
    (hpre : ¬ ('<' :: tag) <:+: pre)
    (ha1 : a1 ≠ []) (hc1 : ¬ ("</".toList ++ tag ++ ">".toList) <:+: a1)
    (hmid : ¬ ('<' :: tag) <:+: mid)
    (ha2 : a2 ≠ []) (hc2 : ¬ ("</".toList ++ tag ++ ">".toList) <:+: a2)
    (hpost : ¬ ('<' :: tag) <:+: post) :
    TagRemover tag
        (pre ++ ('<' :: tag) ++ a1 ++ ("</".toList ++ tag ++ ">".toList)
          ++ mid ++ ('<' :: tag) ++ a2 ++ ("</".toList ++ tag ++ ">".toList) ++ post)
      = pre.rdropWhile (fun c => c == ' ') ++ mid.rdropWhile (fun c => c == ' ') ++ post := by
  have hlt := plainName_no_lt tag htag
  have h1 := TagRemover_step tag pre a1
    (mid ++ ('<' :: tag) ++ a2 ++ ("</".toList ++ tag ++ ">".toList) ++ post) hlt hpre ha1 hc1
  have h2 := TagRemover_step tag mid a2 post hlt hmid ha2 hc2
  have hdoc : pre ++ ('<' :: tag) ++ a1 ++ ("</".toList ++ tag ++ ">".toList)
          ++ mid ++ ('<' :: tag) ++ a2 ++ ("</".toList ++ tag ++ ">".toList) ++ post
      = pre ++ ('<' :: tag) ++ a1 ++ ("</".toList ++ tag ++ ">".toList)
          ++ (mid ++ ('<' :: tag) ++ a2 ++ ("</".toList ++ tag ++ ">".toList) ++ post) := by
    simp only [List.append_assoc]
  rw [hdoc, h1, h2, TagRemover_of_absent _ _ (Or.inl hpost)]
  simp only [List.append_assoc]

/-- C3 (witness): the amended statement at a document with two `div` spans. -/
theorem TagRemover_deletes_every_span_witness :
    TagRemover "div".toList "a <div>x</div> y  <div id=\"q\">z</div>b".toList = "a yb".toList :=
  TagRemover_deletes_every_span "div".toList "a ".toList ">x".toList " y  ".toList
    " id=\"q\">z".toList "b".toList (by decide) (by decide) (by decide) (by decide) (by decide)
    (by decide) (by decide) (by decide)

/-- C4 (evaluation at the failing input): the pattern `<body.*>` is greedy, so on
a document whose body tag is followed by markup on the same line the match runs
to the last `>` of the line and that markup is replaced together with the tag. -/
theorem ScriptInjector_swallows_rest_of_line :
    ScriptInjector "go()".toList "<body class=\"x\"><p>hi</p>\n</body>".toList
      = "<body>\n\n<script>go()</script>\n\n\n</body>".toList := by
  decide

/-- C5 (evaluation at the failing input): the script text is used as a
replacement template, so a `$` followed by a name is expanded as a reference to
a group that does not exist and disappears from the injected script. -/
theorem ScriptInjector_expands_dollar_names :
    ScriptInjector "f($x, $1)".toList "<body>".toList
      = "<body>\n\n<script>f(, )</script>\n\n".toList := by
  decide

/-- C6: a mutator whose pattern is absent returns the document as it is.  For a
document without `<body`, `ScriptInjector` is the identity; each of the six
mutators is the identity on a document in which its pattern has no match, and in
particular on a document without its anchor (`<tag` for `TagRemover` and
`TagAttrReplace`, `<head` for `ExternScriptInjector`, `</head>` for
`StylesheetInjector` and `CSSInjector`).  Tag and attribute names are names
without metacharacters. -/
theorem mutators_noop_without_match (doc script src cssLink css tag attr : List Char)
    (replacer : List Char → List Char) :
    (¬ "<body".toList <:+: doc → ScriptInjector script doc = doc)
    ∧ (search [bodyOpeningRegex] doc = none → ScriptInjector script doc = doc)
    ∧ (plainName tag = true → search [tagRemoverRegex tag] doc = none →
        TagRemover tag doc = doc)
    ∧ (search [headOpeningRegex] doc = none → ExternScriptInjector src doc = doc)
    ∧ (search [headClosingRegex] doc = none → StylesheetInjector cssLink doc = doc)
    ∧ (search [headClosingRegex] doc = none → CSSInjector css doc = doc)
    ∧ (plainName tag = true → plainName attr = true →
        search (tagAttrRegex tag attr) doc = none → TagAttrReplace tag attr replacer doc = doc)
    ∧ (plainName tag = true → ¬ ('<' :: tag) <:+: doc → TagRemover tag doc = doc)
    ∧ (¬ "<head".toList <:+: doc → ExternScriptInjector src doc = doc)
    ∧ (¬ "</head>".toList <:+: doc →
        StylesheetInjector cssLink doc = doc ∧ CSSInjector css doc = doc)
    ∧ (plainName tag = true → plainName attr = true → ¬ ('<' :: tag) <:+: doc →
        TagAttrReplace tag attr replacer doc = doc) := by
  refine ⟨?_, ?_, ?_, ?_, ?_, ?_, ?_, ?_, ?_, ?_, ?_⟩
  · intro h
    exact ReplaceAll_of_none _ _ _ (search_none_of_literal _ _ _ bodyOpening_here_none h)
  · intro h; exact ReplaceAll_of_none _ _ _ h
  · intro _ h; exact ReplaceAll_of_none _ _ _ h
  · intro h; exact ReplaceAll_of_none _ _ _ h
  · intro h; exact ReplaceAll_of_none _ _ _ h
  · intro h; exact ReplaceAll_of_none _ _ _ h
  · intro _ _ h; exact TagAttrReplace_of_none _ _ _ _ h
  · intro _ h; exact TagRemover_of_absent tag doc (Or.inl h)
  · intro h; exact ExternScriptInjector_of_absent src doc h
  · intro h
    have hs := search_none_of_literal _ _ _ headClosing_here_none h
    exact ⟨ReplaceAll_of_none _ _ _ hs, ReplaceAll_of_none _ _ _ hs⟩
  · intro _ _ h
    exact TagAttrReplace_of_none _ _ _ _
      (search_none_of_literal _ _ _ (tagAttr_here_none tag attr) h)

/-- C6 (witness): the six mutators on a document that holds none of their anchors. -/
theorem mutators_noop_without_match_witness :
    ScriptInjector "go()".toList "<p>hi</p>".toList = "<p>hi</p>".toList
    ∧ TagRemover "div".toList "<p>hi</p>".toList = "<p>hi</p>".toList
    ∧ ExternScriptInjector "x.js".toList "<p>hi</p>".toList = "<p>hi</p>".toList
    ∧ StylesheetInjector "x.css".toList "<p>hi</p>".toList = "<p>hi</p>".toList
    ∧ CSSInjector "p \x7b\x7d".toList "<p>hi</p>".toList = "<p>hi</p>".toList
    ∧ TagAttrReplace "a".toList "href".toList shiftLink "<p>hi</p>".toList = "<p>hi</p>".toList :=
  have h := mutators_noop_without_match "<p>hi</p>".toList "go()".toList "x.js".toList
    "x.css".toList "p \x7b\x7d".toList "div".toList "href".toList shiftLink
  have h2 := mutators_noop_without_match "<p>hi</p>".toList "go()".toList "x.js".toList
    "x.css".toList "p \x7b\x7d".toList "a".toList "href".toList shiftLink
  ⟨h.1 (by decide), h.2.2.1 (by decide) (by decide), h.2.2.2.1 (by decide),
    h.2.2.2.2.1 (by decide), h.2.2.2.2.2.1 (by decide),
    h2.2.2.2.2.2.2.1 (by decide) (by decide) (by decide)⟩

/-- C7: a pipeline of zero mutators is the identity, and it is the pipeline
`NewReverseProxy` installs when it is given a nil mutator. -/
theorem ChainMutators_nil_identity (d : List Char) (target : URL) :
    ChainMutators [] d = d ∧ (NewReverseProxy target none).htmlMutator.mutator d = d :=
  ⟨rfl, rfl⟩

/-- C8: composition is sequential and associative: `[A, B]` applies `A` and feeds
the result to `B`; nesting pipelines on the left or on the right gives the flat
pipeline, and a pipeline over a concatenated list is the second pipeline after
the first. -/
theorem ChainMutators_sequential_assoc (A B C : MutateFunc) (d : List Char) :
    ChainMutators [A, B] d = B (A d)
    ∧ ChainMutators [ChainMutators [A, B], C] d = ChainMutators [A, ChainMutators [B, C]] d
    ∧ ChainMutators [A, ChainMutators [B, C]] d = ChainMutators [A, B, C] d
    ∧ ∀ xs ys : List MutateFunc,
        ChainMutators (xs ++ ys) d = ChainMutators ys (ChainMutators xs d) := by
  refine ⟨rfl, rfl, rfl, ?_⟩
  intro xs ys
  simp [ChainMutators, List.foldl_append]

/-- C9 (counterexample): when `</head>` is on a later line than `<head>`, the
script injected first lies inside the head span and is removed with it: the
order `ExternScriptInjector`, `TagRemover("head")` yields a document without the
script element. -/
theorem head_reverse_order_loses_script :
    ChainMutators [ExternScriptInjector "s".toList, TagRemover "head".toList]
        "<head>\n</head>".toList = []
    ∧ ¬ "<script src=\"s\"></script>".toList <:+:
        ChainMutators [ExternScriptInjector "s".toList, TagRemover "head".toList]
          "<head>\n</head>".toList := by
  decide

/-- The literal `</head>` does not occur in the text that the injection puts
after `<head`, followed by a text without it, when `src` has no `<`. -/
theorem closing_head_not_in_injected (src inner : List Char) (hsrc : '<' ∉ src)
    (hinner : ¬ "</head>".toList <:+: inner) :
    ¬ ("</".toList ++ "head".toList ++ ">".toList) <:+:
      ">\n\n<script src=\"".toList ++ src ++ "\"></script>".toList ++ '\n' :: inner := by
  have hA : ¬ ('<' :: "/head>".toList) <:+: "\"></script>".toList ++ '\n' :: inner := by
    have hi : ¬ ('<' :: "/head>".toList) <:+: inner := hinner
    simp only [String.toList, List.cons_append, List.nil_append, List.infix_cons_iff,
      List.cons_prefix_cons] at hi ⊢
    simp +decide [hi]
  have hB := not_infix_append_of_no_lt "/head>".toList src _ hsrc hA
  have hC : ¬ ('<' :: "/head>".toList) <:+:
      ">\n\n<script src=\"".toList ++ (src ++ ("\"></script>".toList ++ '\n' :: inner)) := by
    simp only [String.toList, List.cons_append, List.nil_append, List.infix_cons_iff,
      List.cons_prefix_cons] at hB ⊢
    simp +decide [hB]
  have e : ("</".toList ++ "head".toList ++ ">".toList) = ('<' :: "/head>".toList) := rfl
  rw [e]
  simpa only [List.append_assoc] using hC

/-- C9 (amended): on a document whose `<head` tag ends its line, both orders
return the document without the head span and without the script element.  The
document is `pre ++ <head ++ attrs ++ > ++ newline ++ inner ++ </head> ++ post`
(`attrs` without `<`, `>` and newline, so that the pattern matches the opening
tag and nothing else; no `<head` in `pre`, none after the opening tag, and none in
the document without the span; no `</head>` in `inner`), and `src` has no `$` and
no `<`.  Removing first leaves nothing to inject into.  Injecting first puts the
script element right after the opening tag, inside the span, and the remover
then deletes it with the span. -/
theorem head_mutators_both_lose_script (src pre attrs inner post : List Char)
    (hsrc : '$' ∉ src) (hsrc2 : '<' ∉ src)
    (hpre : ¬ "<head".toList <:+: pre)
    (hattrs : '<' ∉ attrs) (_hgt : '>' ∉ attrs) (hnl : '\n' ∉ attrs)
    (hinner : ¬ "</head>".toList <:+: inner)
    (hafter : ¬ "<head".toList <:+: inner ++ "</head>".toList ++ post)
    (hout : ¬ "<head".toList <:+: pre.rdropWhile (fun c => c == ' ') ++ post) :
    ChainMutators [TagRemover "head".toList, ExternScriptInjector src]
        (pre ++ "<head".toList ++ attrs ++ ">\n".toList ++ inner ++ "</head>".toList ++ post)
      = pre.rdropWhile (fun c => c == ' ') ++ post
    ∧ ExternScriptInjector src
        (pre ++ "<head".toList ++ attrs ++ ">\n".toList ++ inner ++ "</head>".toList ++ post)
      = pre ++ "<head>\n\n<script src=\"".toList ++ src ++ "\"></script>".toList
          ++ '\n' :: inner ++ "</head>".toList ++ post
    ∧ ChainMutators [ExternScriptInjector src, TagRemover "head".toList]
        (pre ++ "<head".toList ++ attrs ++ ">\n".toList ++ inner ++ "</head>".toList ++ post)
      = pre.rdropWhile (fun c => c == ' ') ++ post := by
  have hpost : ¬ ('<' :: "head".toList) <:+: post := fun h =>
    hafter (h.trans ⟨inner ++ "</head>".toList, [], by simp⟩)
  have hTp : TagRemover "head".toList post = post :=
    TagRemover_of_absent "head".toList post (Or.inl hpost)
  -- removing first
  have h1 : TagRemover "head".toList
        (pre ++ "<head".toList ++ attrs ++ ">\n".toList ++ inner ++ "</head>".toList ++ post)
      = pre.rdropWhile (fun c => c == ' ') ++ post := by
    have hclose : ¬ ("</".toList ++ "head".toList ++ ">".toList) <:+:
        attrs ++ (">\n".toList ++ inner) :=
      not_infix_append_of_no_lt "/head>".toList attrs _ hattrs
        (not_infix_append_of_no_lt "/head>".toList ">\n".toList inner (by decide) hinner)
    have hstep := TagRemover_step "head".toList pre (attrs ++ (">\n".toList ++ inner)) post
      (by decide) hpre (by simp) hclose
    have hdoc : pre ++ "<head".toList ++ attrs ++ ">\n".toList ++ inner ++ "</head>".toList ++ post
        = pre ++ ('<' :: "head".toList) ++ (attrs ++ (">\n".toList ++ inner))
            ++ ("</".toList ++ "head".toList ++ ">".toList) ++ post := by
      simp only [List.append_assoc]
      rfl
    rw [hdoc, hstep, hTp]
  -- injecting first
  have h2 : ExternScriptInjector src
        (pre ++ "<head".toList ++ attrs ++ ">\n".toList ++ inner ++ "</head>".toList ++ post)
      = pre ++ "<head>\n\n<script src=\"".toList ++ src ++ "\"></script>".toList
          ++ '\n' :: inner ++ "</head>".toList ++ post := by
    have hrest : ¬ "<head".toList <:+:
        ([] : List Char) ++ '\n' :: (inner ++ "</head>".toList ++ post) :=
      not_infix_append_of_no_lt "head".toList ['\n'] _ (by decide) hafter
    have hstep := ExternScriptInjector_step src pre attrs []
      ('\n' :: (inner ++ "</head>".toList ++ post)) hsrc hpre hnl (List.not_mem_nil _)
      (Or.inr ⟨_, rfl⟩) hrest
    have hdoc : pre ++ "<head".toList ++ attrs ++ ">\n".toList ++ inner ++ "</head>".toList ++ post
        = pre ++ "<head".toList ++ attrs
            ++ '>' :: (([] : List Char) ++ '\n' :: (inner ++ "</head>".toList ++ post)) := by
      simp only [List.append_assoc]
      rfl
    rw [hdoc, hstep]
    simp only [List.append_assoc]
    rfl
  refine ⟨?_, h2, ?_⟩
  · show ExternScriptInjector src (TagRemover "head".toList _) = _
    rw [h1]
    exact ExternScriptInjector_of_absent src _ hout
  · show TagRemover "head".toList (ExternScriptInjector src _) = _
    rw [h2]
    have hstep := TagRemover_step "head".toList pre
      (">\n\n<script src=\"".toList ++ src ++ "\"></script>".toList ++ '\n' :: inner) post
      (by decide) hpre (by simp) (closing_head_not_in_injected src inner hsrc2 hinner)
    have hdoc : pre ++ "<head>\n\n<script src=\"".toList ++ src ++ "\"></script>".toList
          ++ '\n' :: inner ++ "</head>".toList ++ post
        = pre ++ ('<' :: "head".toList)
            ++ (">\n\n<script src=\"".toList ++ src ++ "\"></script>".toList ++ '\n' :: inner)
            ++ ("</".toList ++ "head".toList ++ ">".toList) ++ post := by
      simp only [List.append_assoc]
      rfl
    rw [hdoc, hstep, hTp]

/-- C9 (witness): a head element of three lines, with an attribute and a title. -/
theorem head_mutators_both_lose_script_witness :
    ChainMutators [TagRemover "head".toList, ExternScriptInjector "x.js".toList]
        "<html> <head lang=\"en\">\n<title>t</title>\n</head>\n<body></body>".toList
      = "<html>\n<body></body>".toList
    ∧ ExternScriptInjector "x.js".toList
        "<html> <head lang=\"en\">\n<title>t</title>\n</head>\n<body></body>".toList
      = "<html> <head>\n\n<script src=\"x.js\"></script>\n<title>t</title>\n</head>\n<body></body>".toList
    ∧ ChainMutators [ExternScriptInjector "x.js".toList, TagRemover "head".toList]
        "<html> <head lang=\"en\">\n<title>t</title>\n</head>\n<body></body>".toList
      = "<html>\n<body></body>".toList :=
  head_mutators_both_lose_script "x.js".toList "<html> ".toList " lang=\"en\"".toList
    "<title>t</title>\n".toList "\n<body></body>".toList (by decide) (by decide) (by decide)
    (by decide) (by decide) (by decide) (by decide) (by decide) (by decide)

/-! ### The capture buffer -/

/-- One call leaves the body bytes of the underlying writer as they were. -/
theorem call_body (muwr : HTMLMutatorWriter) (c : WriterCall) :
    (muwr.call c).ResponseWriter.body = muwr.ResponseWriter.body := by
  cases c with
  | write b => rfl
  | writeHeader code =>
    simp only [HTMLMutatorWriter.call, HTMLMutatorWriter.WriteHeader]
    cases muwr.isFlusher <;> rfl

/-- A sequence of calls appends the written chunks to the buffer, in order. -/
theorem calls_buffer (cs : List WriterCall) (muwr : HTMLMutatorWriter) :
    (muwr.calls cs).buffer = muwr.buffer ++ (writtenChunks cs).flatten := by
  induction cs generalizing muwr with
  | nil => simp [HTMLMutatorWriter.calls, writtenChunks]
  | cons c cs ih =>
    have step : muwr.calls (c :: cs) = (muwr.call c).calls cs := rfl
    rw [step, ih]
    cases c with
    | write b => simp [HTMLMutatorWriter.call, HTMLMutatorWriter.Write, writtenChunks]
    | writeHeader code =>
      simp [HTMLMutatorWriter.call, HTMLMutatorWriter.WriteHeader, writtenChunks]

/-- A sequence of calls leaves the body bytes of the underlying writer as they
were. -/
theorem calls_body (cs : List WriterCall) (muwr : HTMLMutatorWriter) :
    (muwr.calls cs).ResponseWriter.body = muwr.ResponseWriter.body := by
  induction cs generalizing muwr with
  | nil => rfl
  | cons c cs ih =>
    have step : muwr.calls (c :: cs) = (muwr.call c).calls cs := rfl
    rw [step, ih, call_body]

/-- C10: no body byte is forwarded by the capture.  Every `Write` returns the
full length and no error, appends its bytes to the buffer and leaves the
underlying writer untouched; after any sequence of `Write` and `WriteHeader`
calls the buffer holds the chunks written, concatenated in order, after what it
held before (for a new writer: exactly the chunks), and the body bytes of the
underlying writer are what they were. -/
theorem Write_captures_without_forwarding (muwr : HTMLMutatorWriter) (b : List Char)
    (cs : List WriterCall) (hmu : HTMLMutator) (w : ResponseWriter) (fl : Bool) :
    (muwr.Write b).2 = (b.length, none)
    ∧ (muwr.Write b).1.buffer = muwr.buffer ++ b
    ∧ (muwr.Write b).1.ResponseWriter = muwr.ResponseWriter
    ∧ (muwr.calls cs).buffer = muwr.buffer ++ (writtenChunks cs).flatten
    ∧ (muwr.calls cs).ResponseWriter.body = muwr.ResponseWriter.body
    ∧ ((hmu.NewWriter w fl).calls cs).buffer = (writtenChunks cs).flatten
    ∧ ((hmu.NewWriter w fl).calls cs).ResponseWriter.body = w.body := by
  refine ⟨rfl, rfl, rfl, calls_buffer cs muwr, calls_body cs muwr, ?_, ?_⟩
  · rw [calls_buffer]; rfl
  · rw [calls_body]; rfl

/-! ### Finalization -/

/-- On a connection that takes every byte `Write` appends the bytes and returns
their number and no error. -/
theorem Write_on_open_connection (w : ResponseWriter) (b : List Char)
    (h : w.failure = none) :
    w.Write b = ({ w with body := w.body ++ b }, b.length, none) := by
  simp only [ResponseWriter.Write, h]

/-- On a connection that takes no byte any more `Write` of a chunk that is not
empty returns the error of the connection and writes nothing. -/
theorem Write_on_closed_connection (w : ResponseWriter) (b : List Char) (err : Error)
    (h : w.failure = some (0, err)) (hb : b ≠ []) :
    (w.Write b).2.2 = some err ∧ (w.Write b).1.body = w.body := by
  have hl : ¬ b.length ≤ 0 := by
    have := List.length_pos.mpr hb
    omega
  simp only [ResponseWriter.Write, h, hl, if_false, List.take_zero, List.append_nil, and_self]

/-- Without an announced encoding, on a connection that takes every byte,
`ApplyHTML` writes the pipeline applied to the captured bytes. -/
theorem ApplyHTML_raw (muwr : HTMLMutatorWriter) (cz : Codecs)
    (he : muwr.ResponseWriter.header.Get "Content-Encoding".toList = [])
    (hsink : muwr.ResponseWriter.failure = none) :
    muwr.ApplyHTML cz
      = ({ muwr with
            compression := [], rawData := muwr.buffer,
            ResponseWriter := { muwr.ResponseWriter with
              body := muwr.ResponseWriter.body ++ muwr.mutator.mutator muwr.buffer } },
          none) := by
  have g0 : ([] : List Char) ≠ "gzip".toList := by decide
  have f0 : ([] : List Char) ≠ "deflate".toList := by decide
  simp only [HTMLMutatorWriter.ApplyHTML, HTMLMutatorWriter.readUncompressed, he, if_true,
    g0, f0, if_false, ResponseWriter.Write, hsink]

/-- With `gzip` announced and bytes that the reader decodes, on a connection that
takes every byte, `ApplyHTML` writes the gzip stream of the pipeline applied to
the decoded bytes. -/
theorem ApplyHTML_gzip (muwr : HTMLMutatorWriter) (cz : Codecs) (data : List Char)
    (he : muwr.ResponseWriter.header.Get "Content-Encoding".toList = "gzip".toList)
    (h1 : cz.gzipNewReader muwr.buffer = none) (h2 : cz.gzipReadAll muwr.buffer = .ok data)
    (hsink : muwr.ResponseWriter.failure = none) :
    muwr.ApplyHTML cz
      = ({ muwr with
            compression := "gzip".toList, rawData := data,
            ResponseWriter := { muwr.ResponseWriter with
              body := muwr.ResponseWriter.body
                ++ cz.gzipWriter.encode (muwr.mutator.mutator data) } },
          none) := by
  have g0 : "gzip".toList ≠ [] := by decide
  simp only [HTMLMutatorWriter.ApplyHTML, HTMLMutatorWriter.readUncompressed, he, if_true,
    g0, if_false, h1, h2, Compressor.Write, Compressor.Close, ResponseWriter.Write, hsink,
    Compressor.encode, List.append_assoc]

/-- With `deflate` announced and bytes that the reader decodes, on a connection
that takes every byte, `ApplyHTML` writes the deflate stream of the pipeline
applied to the decoded bytes. -/
theorem ApplyHTML_deflate (muwr : HTMLMutatorWriter) (cz : Codecs) (data : List Char)
    (he : muwr.ResponseWriter.header.Get "Content-Encoding".toList = "deflate".toList)
    (h2 : cz.flateReadAll muwr.buffer = .ok data)
    (hsink : muwr.ResponseWriter.failure = none) :
    muwr.ApplyHTML cz
      = ({ muwr with
            compression := "deflate".toList, rawData := data,
            ResponseWriter := { muwr.ResponseWriter with
              body := muwr.ResponseWriter.body
                ++ cz.flateWriter.encode (muwr.mutator.mutator data) } },
          none) := by
  have f0 : "deflate".toList ≠ [] := by decide
  have fg : "deflate".toList ≠ "gzip".toList := by decide
  simp only [HTMLMutatorWriter.ApplyHTML, HTMLMutatorWriter.readUncompressed, he, if_true,
    f0, fg, if_false, h2, Compressor.Write, Compressor.Close, ResponseWriter.Write, hsink,
    Compressor.encode, List.append_assoc]

/-- An announced encoding that is none of the three makes `ApplyHTML` return at
once. -/
theorem ApplyHTML_other (muwr : HTMLMutatorWriter) (cz : Codecs)
    (h0 : muwr.ResponseWriter.header.Get "Content-Encoding".toList ≠ [])
    (h1 : muwr.ResponseWriter.header.Get "Content-Encoding".toList ≠ "gzip".toList)
    (h2 : muwr.ResponseWriter.header.Get "Content-Encoding".toList ≠ "deflate".toList) :
    muwr.ApplyHTML cz
      = ({ muwr with
            compression := muwr.ResponseWriter.header.Get "Content-Encoding".toList },
          some (.unknownEncoding (muwr.ResponseWriter.header.Get "Content-Encoding".toList))) := by
  simp only [HTMLMutatorWriter.ApplyHTML, HTMLMutatorWriter.readUncompressed, h0, h1, h2,
    if_false]

/-- Once the captured bytes are decoded, `ApplyHTML` fails only with a wrapped
error of the writers, never with `unknown encoding`. -/
theorem ApplyHTML_after_read (muwr : HTMLMutatorWriter) (cz : Codecs)
    (h : (muwr.readUncompressed cz).2 = none) :
    ∀ c, (muwr.ApplyHTML cz).2 ≠ some (.unknownEncoding c) := by
  intro c
  unfold HTMLMutatorWriter.ApplyHTML
  split
  · rename_i m err heq
    rw [heq] at h
    cases h
  · dsimp only
    split
    · intro hh; cases hh
    · split
      · intro hh; cases hh
      · intro hh; cases hh

/-- C11 (counterexample): the captured bytes are the raw document `<body>`, no
encoding is announced and the pipeline is empty, but the client has closed the
connection: `ApplyHTML` does not succeed.  It returns the error of the
connection wrapped as `failed to write`, and nothing reaches the client. -/
theorem ApplyHTML_fails_on_closed_connection :
    ((((NewHTMLMutator (ChainMutators [])).NewWriter
        (brokenWriter (oneHeader "Content-Type".toList ["text/html".toList])) false).Write
          "<body>".toList).1.ApplyHTML toyCodecs).2
      = some (.wrap (.collaborator "broken pipe".toList) "failed to write".toList)
    ∧ ((((NewHTMLMutator (ChainMutators [])).NewWriter
        (brokenWriter (oneHeader "Content-Type".toList ["text/html".toList])) false).Write
          "<body>".toList).1.ApplyHTML toyCodecs).1.ResponseWriter.body = [] := by
  decide

/-- C11 (amended): the round trip of finalization, on a connection that takes
every byte and with codecs whose readers undo their writers.  When no encoding
is announced, `ApplyHTML` succeeds and appends to the body of the underlying
writer exactly the pipeline applied to the captured bytes; when `gzip` or
`deflate` is announced and the captured bytes are the encoding of `d`, it
succeeds and appends the encoding of the pipeline applied to `d`, which decodes
to the pipeline applied to `d` (to `d` itself when the pipeline leaves `d` as it
is). -/
theorem ApplyHTML_round_trip (muwr : HTMLMutatorWriter) (cz : Codecs) (d : List Char)
    (hgz : ∀ x, cz.gzipNewReader (cz.gzipWriter.encode x) = none
      ∧ cz.gzipReadAll (cz.gzipWriter.encode x) = .ok x)
    (hfl : ∀ x, cz.flateReadAll (cz.flateWriter.encode x) = .ok x)
    (hsink : muwr.ResponseWriter.failure = none) :
    (muwr.ResponseWriter.header.Get "Content-Encoding".toList = [] → muwr.buffer = d →
      (muwr.ApplyHTML cz).2 = none
      ∧ (muwr.ApplyHTML cz).1.ResponseWriter.body
          = muwr.ResponseWriter.body ++ muwr.mutator.mutator d)
    ∧ (muwr.ResponseWriter.header.Get "Content-Encoding".toList = "gzip".toList →
      muwr.buffer = cz.gzipWriter.encode d →
      (muwr.ApplyHTML cz).2 = none
      ∧ (muwr.ApplyHTML cz).1.ResponseWriter.body
          = muwr.ResponseWriter.body ++ cz.gzipWriter.encode (muwr.mutator.mutator d)
      ∧ cz.gzipReadAll (cz.gzipWriter.encode (muwr.mutator.mutator d))
          = .ok (muwr.mutator.mutator d)
      ∧ (muwr.mutator.mutator d = d →
          cz.gzipReadAll (cz.gzipWriter.encode (muwr.mutator.mutator d)) = .ok d))
    ∧ (muwr.ResponseWriter.header.Get "Content-Encoding".toList = "deflate".toList →
      muwr.buffer = cz.flateWriter.encode d →
      (muwr.ApplyHTML cz).2 = none
      ∧ (muwr.ApplyHTML cz).1.ResponseWriter.body
          = muwr.ResponseWriter.body ++ cz.flateWriter.encode (muwr.mutator.mutator d)
      ∧ cz.flateReadAll (cz.flateWriter.encode (muwr.mutator.mutator d))
          = .ok (muwr.mutator.mutator d)
      ∧ (muwr.mutator.mutator d = d →
          cz.flateReadAll (cz.flateWriter.encode (muwr.mutator.mutator d)) = .ok d)) := by
  refine ⟨?_, ?_, ?_⟩
  · intro he hb
    rw [ApplyHTML_raw muwr cz he hsink, hb]
    exact ⟨rfl, rfl⟩
  · intro he hb
    have h1 : cz.gzipNewReader muwr.buffer = none := by rw [hb]; exact (hgz d).1
    have h2 : cz.gzipReadAll muwr.buffer = .ok d := by rw [hb]; exact (hgz d).2
    rw [ApplyHTML_gzip muwr cz d he h1 h2 hsink]
    exact ⟨rfl, rfl, (hgz _).2, fun hid => by rw [hid]; exact (hgz d).2⟩
  · intro he hb
    have h2 : cz.flateReadAll muwr.buffer = .ok d := by rw [hb]; exact hfl d
    rw [ApplyHTML_deflate muwr cz d he h2 hsink]
    exact ⟨rfl, rfl, hfl _, fun hid => by rw [hid]; exact hfl d⟩

/-- The readers of the toy codecs undo the writers. -/
theorem toyCodecs_round_trip (x : List Char) :
    (toyCodecs.gzipNewReader (toyCodecs.gzipWriter.encode x) = none
      ∧ toyCodecs.gzipReadAll (toyCodecs.gzipWriter.encode x) = .ok x)
    ∧ toyCodecs.flateReadAll (toyCodecs.flateWriter.encode x) = .ok x :=
  ⟨⟨rfl, by simp [toyCodecs, Compressor.encode, toyReadAll]⟩,
    by simp [toyCodecs, Compressor.encode, toyReadAll]⟩

/-- C11 (witness): a gzip response of the toy codecs that holds `<body>`, with
`ScriptInjector` as the pipeline, on a connection that takes every byte.  The
captured stream is `g>ydob<`, in which the pipeline finds nothing; finalization
succeeds, the bytes written are the stream of the document with the script
injected, and they decode to that document. -/
theorem ApplyHTML_round_trip_witness :
    ((((NewHTMLMutator (ScriptInjector "go()".toList)).NewWriter
        (freshWriter (oneHeader "Content-Encoding".toList ["gzip".toList])) false).Write
          (toyCodecs.gzipWriter.encode "<body>".toList)).1.ApplyHTML toyCodecs).2 = none
    ∧ ((((NewHTMLMutator (ScriptInjector "go()".toList)).NewWriter
        (freshWriter (oneHeader "Content-Encoding".toList ["gzip".toList])) false).Write
          (toyCodecs.gzipWriter.encode "<body>".toList)).1.ApplyHTML
            toyCodecs).1.ResponseWriter.body
      = toyCodecs.gzipWriter.encode "<body>\n\n<script>go()</script>\n\n".toList
    ∧ toyCodecs.gzipReadAll
        ((((NewHTMLMutator (ScriptInjector "go()".toList)).NewWriter
          (freshWriter (oneHeader "Content-Encoding".toList ["gzip".toList])) false).Write
            (toyCodecs.gzipWriter.encode "<body>".toList)).1.ApplyHTML
              toyCodecs).1.ResponseWriter.body
      = .ok "<body>\n\n<script>go()</script>\n\n".toList
    ∧ ScriptInjector "go()".toList (toyCodecs.gzipWriter.encode "<body>".toList)
      = "g>ydob<".toList :=
  have h := (ApplyHTML_round_trip
    (((NewHTMLMutator (ScriptInjector "go()".toList)).NewWriter
      (freshWriter (oneHeader "Content-Encoding".toList ["gzip".toList])) false).Write
        (toyCodecs.gzipWriter.encode "<body>".toList)).1
    toyCodecs "<body>".toList (fun x => (toyCodecs_round_trip x).1)
    (fun x => (toyCodecs_round_trip x).2) rfl).2.1 (by decide) (by decide)
  ⟨h.1, by rw [h.2.1]; decide,
    by rw [h.2.1]; exact h.2.2.1.trans (congrArg Except.ok (by decide)), by decide⟩

/-- C12: an announced encoding other than the empty string, `gzip` and `deflate`
makes `ApplyHTML` fail with the error `unknown encoding` that names the value;
the writer comes back as it was but for the noted encoding: nothing is written
to the underlying writer and no result of the pipeline is stored.  With the
empty string, `gzip` or `deflate`, `ApplyHTML` does not fail with that error. -/
theorem ApplyHTML_unknown_encoding (muwr : HTMLMutatorWriter) (cz : Codecs) :
    (muwr.ResponseWriter.header.Get "Content-Encoding".toList ≠ [] →
      muwr.ResponseWriter.header.Get "Content-Encoding".toList ≠ "gzip".toList →
      muwr.ResponseWriter.header.Get "Content-Encoding".toList ≠ "deflate".toList →
      (muwr.ApplyHTML cz).2
          = some (.unknownEncoding (muwr.ResponseWriter.header.Get "Content-Encoding".toList))
      ∧ (muwr.ApplyHTML cz).1
          = { muwr with
              compression := muwr.ResponseWriter.header.Get "Content-Encoding".toList }
      ∧ (muwr.ApplyHTML cz).1.ResponseWriter = muwr.ResponseWriter)
    ∧ (muwr.ResponseWriter.header.Get "Content-Encoding".toList = []
        ∨ muwr.ResponseWriter.header.Get "Content-Encoding".toList = "gzip".toList
        ∨ muwr.ResponseWriter.header.Get "Content-Encoding".toList = "deflate".toList →
      ∀ c, (muwr.ApplyHTML cz).2 ≠ some (.unknownEncoding c)) := by
  have g0 : "gzip".toList ≠ [] := by decide
  have f0 : "deflate".toList ≠ [] := by decide
  have fg : "deflate".toList ≠ "gzip".toList := by decide
  refine ⟨?_, ?_⟩
  · intro h0 h1 h2
    rw [ApplyHTML_other muwr cz h0 h1 h2]
    exact ⟨rfl, rfl, rfl⟩
  · rintro (he | he | he) c
    · apply ApplyHTML_after_read
      simp only [HTMLMutatorWriter.readUncompressed, he, if_true]
    · cases h1 : cz.gzipNewReader muwr.buffer with
      | some e =>
        simp only [HTMLMutatorWriter.ApplyHTML, HTMLMutatorWriter.readUncompressed, he, g0,
          if_false, if_true, h1]
        intro h
        exact Error.noConfusion (Option.some.inj h)
      | none =>
        cases h2 : cz.gzipReadAll muwr.buffer with
        | error e =>
          simp only [HTMLMutatorWriter.ApplyHTML, HTMLMutatorWriter.readUncompressed, he, g0,
            if_false, if_true, h1, h2]
          intro h
          exact Error.noConfusion (Option.some.inj h)
        | ok data =>
          apply ApplyHTML_after_read
          simp only [HTMLMutatorWriter.readUncompressed, he, g0, if_false, if_true, h1, h2]
    · cases h2 : cz.flateReadAll muwr.buffer with
      | error e =>
        simp only [HTMLMutatorWriter.ApplyHTML, HTMLMutatorWriter.readUncompressed, he, f0, fg,
          if_false, if_true, h2]
        intro h
        exact Error.noConfusion (Option.some.inj h)
      | ok data =>
        apply ApplyHTML_after_read
        simp only [HTMLMutatorWriter.readUncompressed, he, f0, fg, if_false, if_true, h2]

/-- C12 (witness): a response that announces `brotli`. -/
theorem ApplyHTML_unknown_encoding_witness :
    ((((NewHTMLMutator (ScriptInjector "go()".toList)).NewWriter
        (freshWriter (oneHeader "Content-Encoding".toList ["brotli".toList])) false).Write
          "<body>".toList).1.ApplyHTML toyCodecs).2
      = some (.unknownEncoding "brotli".toList)
    ∧ ((((NewHTMLMutator (ScriptInjector "go()".toList)).NewWriter
        (freshWriter (oneHeader "Content-Encoding".toList ["brotli".toList])) false).Write
          "<body>".toList).1.ApplyHTML toyCodecs).1.ResponseWriter.body = [] :=
  have h := (ApplyHTML_unknown_encoding
    (((NewHTMLMutator (ScriptInjector "go()".toList)).NewWriter
      (freshWriter (oneHeader "Content-Encoding".toList ["brotli".toList])) false).Write
        "<body>".toList).1 toyCodecs).1 (by decide) (by decide) (by decide)
  ⟨h.1, by rw [h.2.2]; rfl⟩

/-! ### The headers -/

/-- C13: `HTMLMutatorWriter.WriteHeader` deletes `Content-Security-Policy` and
`Content-Length` from the header map of the underlying writer, leaves every
other key with its values, hands exactly the given status code to the underlying
writer, and writes no body byte. -/
theorem WriteHeader_strips_two_headers (muwr : HTMLMutatorWriter) (statusCode : Nat) :
    (muwr.WriteHeader statusCode).ResponseWriter.header "Content-Security-Policy".toList = none
    ∧ (muwr.WriteHeader statusCode).ResponseWriter.header "Content-Length".toList = none
    ∧ (∀ k, k ≠ "Content-Security-Policy".toList → k ≠ "Content-Length".toList →
        (muwr.WriteHeader statusCode).ResponseWriter.header k = muwr.ResponseWriter.header k)
    ∧ (muwr.WriteHeader statusCode).ResponseWriter.statusCodes
        = muwr.ResponseWriter.statusCodes ++ [statusCode]
    ∧ (muwr.WriteHeader statusCode).ResponseWriter.body = muwr.ResponseWriter.body
    ∧ (muwr.WriteHeader statusCode).buffer = muwr.buffer := by
  have hne : "Content-Security-Policy".toList ≠ "Content-Length".toList := by decide
  have hh : (muwr.WriteHeader statusCode).ResponseWriter.header
      = (muwr.ResponseWriter.header.Del "Content-Security-Policy".toList).Del
          "Content-Length".toList := by
    cases hf : muwr.isFlusher <;> simp only [HTMLMutatorWriter.WriteHeader, hf] <;> rfl
  have hs : (muwr.WriteHeader statusCode).ResponseWriter.statusCodes
      = muwr.ResponseWriter.statusCodes ++ [statusCode] := by
    cases hf : muwr.isFlusher <;> simp only [HTMLMutatorWriter.WriteHeader, hf] <;> rfl
  have hb : (muwr.WriteHeader statusCode).ResponseWriter.body = muwr.ResponseWriter.body := by
    cases hf : muwr.isFlusher <;> simp only [HTMLMutatorWriter.WriteHeader, hf] <;> rfl
  refine ⟨?_, ?_, ?_, hs, hb, rfl⟩
  · rw [hh]
    simp only [Header.Del, hne, if_false, if_true]
  · rw [hh]
    simp only [Header.Del, if_true]
  · intro k h1 h2
    rw [hh]
    simp only [Header.Del, h1, h2, if_false]

/-- C13 (witness): a header map with `Content-Length` and `Content-Type`, and the
status code 200. -/
theorem WriteHeader_strips_two_headers_witness :
    (((NewHTMLMutator (ChainMutators [])).NewWriter (freshWriter sampleHeader) false).WriteHeader
        200).ResponseWriter.header "Content-Length".toList = none
    ∧ (((NewHTMLMutator (ChainMutators [])).NewWriter (freshWriter sampleHeader) false).WriteHeader
        200).ResponseWriter.header "Content-Type".toList = some ["text/html".toList]
    ∧ (((NewHTMLMutator (ChainMutators [])).NewWriter (freshWriter sampleHeader) false).WriteHeader
        200).ResponseWriter.statusCodes = [200] :=
  have h := WriteHeader_strips_two_headers
    ((NewHTMLMutator (ChainMutators [])).NewWriter (freshWriter sampleHeader) false) 200
  ⟨h.2.1, (h.2.2.1 "Content-Type".toList (by decide) (by decide)).trans (by decide), h.2.2.2.1⟩

/-- C14: `cookieInterceptorWriter.WriteHeader` replaces the values under
`Set-Cookie` by the changer applied to each of them, in the same number and
order; it creates no `Set-Cookie` key, leaves every other key with its values,
and hands the status code to the wrapped writer unchanged. -/
theorem cookie_WriteHeader_rewrites_set_cookie (w : cookieInterceptorWriter)
    (statusCode : Nat) :
    (w.WriteHeader statusCode).ResponseWriter.header "Set-Cookie".toList
        = (w.ResponseWriter.header "Set-Cookie".toList).map (List.map w.interceptor.changer)
    ∧ (∀ cookies, w.ResponseWriter.header "Set-Cookie".toList = some cookies →
        ∃ cookies1, (w.WriteHeader statusCode).ResponseWriter.header "Set-Cookie".toList
            = some cookies1
          ∧ cookies1.length = cookies.length
          ∧ ∀ i : Nat, cookies1[i]? = (cookies[i]?).map w.interceptor.changer)
    ∧ (w.ResponseWriter.header "Set-Cookie".toList = none →
        (w.WriteHeader statusCode).ResponseWriter.header "Set-Cookie".toList = none)
    ∧ (∀ k, k ≠ "Set-Cookie".toList →
        (w.WriteHeader statusCode).ResponseWriter.header k = w.ResponseWriter.header k)
    ∧ (w.WriteHeader statusCode).ResponseWriter.statusCodes
        = w.ResponseWriter.statusCodes ++ [statusCode]
    ∧ (w.WriteHeader statusCode).ResponseWriter.body = w.ResponseWriter.body := by
  have hh : (w.WriteHeader statusCode).ResponseWriter.header
      = (match w.ResponseWriter.header "Set-Cookie".toList with
        | some cookies =>
          w.ResponseWriter.header.assign "Set-Cookie".toList
            (cookies.map w.interceptor.changer)
        | none => w.ResponseWriter.header) := rfl
  refine ⟨?_, ?_, ?_, ?_, rfl, rfl⟩
  · rw [hh]
    cases hc : w.ResponseWriter.header "Set-Cookie".toList with
    | none => simp only [hc, Option.map_none']
    | some cs => simp only [Header.assign, if_true, Option.map_some']
  · intro cookies hc
    refine ⟨cookies.map w.interceptor.changer, ?_, by simp, fun i => by simp⟩
    rw [hh]
    simp only [hc, Header.assign, if_true]
  · intro hc
    rw [hh]
    simp only [hc]
  · intro k hk
    rw [hh]
    cases hc : w.ResponseWriter.header "Set-Cookie".toList with
    | none => rfl
    | some cs => simp only [Header.assign, hk, if_false]

/-- C14 (witness): two cookies and one other header. -/
theorem cookie_WriteHeader_rewrites_set_cookie_witness :
    (((NewCookieInterceptor shiftLink).NewWriter
        (freshWriter (oneHeader "Set-Cookie".toList ["/a".toList, "/b".toList]))).WriteHeader
          200).ResponseWriter.header "Set-Cookie".toList
      = some ["/b".toList, "/c".toList] :=
  ((cookie_WriteHeader_rewrites_set_cookie
    ((NewCookieInterceptor shiftLink).NewWriter
      (freshWriter (oneHeader "Set-Cookie".toList ["/a".toList, "/b".toList]))) 200).1).trans
    (by decide)

/-! ### The cookie rewrite -/

/-- The loop of `strings.ReplaceAll` leaves a text without `old` as it is. -/
theorem stringsReplaceAllFuel_of_absent (old new : List Char) :
    ∀ (n : Nat) (s : List Char), ¬ old <:+: s → stringsReplaceAllFuel old new n s = s := by
  intro n
  induction n with
  | zero => intro s _; rfl
  | succ n ih =>
    intro s h
    have hp : old.isPrefixOf s = false := by
      cases hb : old.isPrefixOf s with
      | false => rfl
      | true => exact absurd (List.isPrefixOf_iff_prefix.mp hb).isInfix h
    cases s with
    | nil => simp [stringsReplaceAllFuel, hp]
    | cons x t =>
      have ht : ¬ old <:+: t := fun hi => h (hi.trans (List.infix_cons (List.infix_refl t)))
      simp [stringsReplaceAllFuel, hp, ih t ht]

/-- The fuel of the loop of `strings.ReplaceAll` is enough. -/
theorem stringsReplaceAllFuel_fuel (old new : List Char) (hold : old ≠ []) :
    ∀ (n m : Nat) (s : List Char), s.length ≤ n → s.length ≤ m →
      stringsReplaceAllFuel old new n s = stringsReplaceAllFuel old new m s := by
  have hnil : ∀ n, stringsReplaceAllFuel old new n [] = [] := by
    intro n
    cases n with
    | zero => rfl
    | succ n =>
      have hp : old.isPrefixOf ([] : List Char) = false := by
        cases old with
        | nil => exact absurd rfl hold
        | cons c l => rfl
      simp [stringsReplaceAllFuel, hp]
  intro n
  induction n with
  | zero =>
    intro m s hn _
    have : s = [] := List.eq_nil_of_length_eq_zero (Nat.le_zero.mp hn)
    subst this
    rw [hnil, hnil]
  | succ n ih =>
    intro m s hn hm
    cases m with
    | zero =>
      have : s = [] := List.eq_nil_of_length_eq_zero (Nat.le_zero.mp hm)
      subst this
      rw [hnil, hnil]
    | succ m =>
      cases hb : old.isPrefixOf s with
      | true =>
        have hlen : (s.drop old.length).length < s.length ∨ s = [] := by
          cases s with
          | nil => exact Or.inr rfl
          | cons x t =>
            left
            have : 0 < old.length := List.length_pos.mpr hold
            simp only [List.length_drop, List.length_cons]
            omega
        rcases hlen with hlen | hs
        · simp only [stringsReplaceAllFuel, hb, if_true]
          rw [ih m _ (by omega) (by omega)]
        · subst hs
          rw [hnil, hnil]
      | false =>
        cases s with
        | nil => rw [hnil, hnil]
        | cons x t =>
          simp only [List.length_cons] at hn hm
          simp only [stringsReplaceAllFuel, hb, Bool.false_eq_true, if_false]
          rw [ih m t (by omega) (by omega)]

/-- The loop of `strings.ReplaceAll` copies a prefix in which `old` does not begin. -/
theorem stringsReplaceAllFuel_skip (old new X : List Char) (n : Nat) :
    ∀ pre : List Char, (∀ a b, pre = a ++ b → b ≠ [] → ¬ old <+: b ++ X) →
      stringsReplaceAllFuel old new (pre.length + n) (pre ++ X)
        = pre ++ stringsReplaceAllFuel old new n X := by
  intro pre
  induction pre with
  | nil => intro _; simp
  | cons x pre ih =>
    intro h
    have h0 := h [] (x :: pre) rfl (by simp)
    have hp : old.isPrefixOf (x :: pre ++ X) = false := by
      cases hb : old.isPrefixOf (x :: pre ++ X) with
      | false => rfl
      | true => exact absurd (List.isPrefixOf_iff_prefix.mp hb) h0
    have ih1 := ih (fun a b hab hb => h (x :: a) b (by simp [hab]) hb)
    have hl : (x :: pre).length + n = (pre.length + n) + 1 := by
      simp only [List.length_cons]; omega
    rw [hl]
    simp only [List.cons_append] at hp ⊢
    simp only [stringsReplaceAllFuel, hp, Bool.false_eq_true, if_false, ih1]

/-- The loop of `strings.ReplaceAll` at an occurrence of `old`. -/
theorem stringsReplaceAllFuel_hit (old new post : List Char) (n : Nat) :
    stringsReplaceAllFuel old new (n + 1) (old ++ post)
      = new ++ stringsReplaceAllFuel old new n post := by
  have hb : old.isPrefixOf (old ++ post) = true :=
    List.isPrefixOf_iff_prefix.mpr (List.prefix_append old post)
  simp only [stringsReplaceAllFuel, hb, if_true, List.drop_left]

/-- One replacement of `strings.ReplaceAll`: the text before the first `old` is
copied, `old` is replaced, and the loop goes on after it. -/
theorem stringsReplaceAll_step (old new pre post : List Char) (hold : old ≠ [])
    (hpre : ∀ a b, pre = a ++ b → b ≠ [] → ¬ old <+: b ++ (old ++ post)) :
    stringsReplaceAll (pre ++ old ++ post) old new
      = pre ++ new ++ stringsReplaceAll post old new := by
  unfold stringsReplaceAll
  simp only [hold, if_false]
  have hl : (pre ++ old ++ post).length + 1 = pre.length + ((old.length + post.length) + 1) := by
    simp only [List.length_append]; omega
  rw [hl, List.append_assoc, stringsReplaceAllFuel_skip old new (old ++ post) _ pre hpre]
  rw [stringsReplaceAllFuel_hit,
    stringsReplaceAllFuel_fuel old new hold (old.length + post.length) (post.length + 1) post
      (by omega) (by omega)]
  simp only [List.append_assoc]

/-- A text `old` that does not occur in `pre` followed by `old` without its last
character begins nowhere inside `pre` when `pre` is followed by `old`. -/
theorem no_earlier_start (old pre Y : List Char) (hold : old ≠ [])
    (h : ¬ old <:+: pre ++ old.dropLast) :
    ∀ a b, pre = a ++ b → b ≠ [] → ¬ old <+: b ++ (old ++ Y) := by
  intro a b hab hb hp
  have hlen : old.length ≤ (b ++ old.dropLast).length := by
    have h1 := List.length_pos.mpr hb
    have h2 := List.length_pos.mpr hold
    simp only [List.length_append, List.length_dropLast]
    omega
  have hq : b ++ old.dropLast <+: b ++ (old ++ Y) :=
    (List.prefix_append_right_inj b).mpr
      ((List.dropLast_prefix old).trans (List.prefix_append old Y))
  obtain ⟨r, hr⟩ := List.prefix_of_prefix_length_le hp hq hlen
  apply h
  refine ⟨a, r, ?_⟩
  rw [hab, List.append_assoc, hr, List.append_assoc]

/-- A text without `old` is left as it is by `strings.ReplaceAll`. -/
theorem stringsReplaceAll_of_absent (old new s : List Char) (hold : old ≠ [])
    (h : ¬ old <:+: s) : stringsReplaceAll s old new = s := by
  unfold stringsReplaceAll
  simp only [hold, if_false]
  exact stringsReplaceAllFuel_of_absent old new _ s h

/-- The method `URL.Hostname` on four hosts: without a port, with a port, an
address in brackets with a port, and with a text after the colon that is not a
port. -/
theorem Hostname_examples :
    URL.Hostname { Scheme := [], Host := "github.com".toList, Path := [] } = "github.com".toList
    ∧ URL.Hostname { Scheme := [], Host := "example.com:8080".toList, Path := [] }
        = "example.com".toList
    ∧ URL.Hostname { Scheme := [], Host := "[::1]:80".toList, Path := [] } = "::1".toList
    ∧ URL.Hostname { Scheme := [], Host := "example.com:http".toList, Path := [] }
        = "example.com:http".toList := by
  decide

/-- C15 (counterexample): a `Domain` attribute in last position is not followed by
`; ` and is kept by the cookie rewrite of `NewReverseProxy`. -/
theorem cookie_changer_keeps_last_domain :
    (NewReverseProxy
        { Scheme := "https".toList, Host := "github.com".toList, Path := "/alice".toList }
        none).cookieInterceptor.changer "session=abc; Path=/; Domain=github.com".toList
      = "session=abc; Path=/; Domain=github.com".toList
    ∧ "Domain=github.com".toList <:+:
        (NewReverseProxy
          { Scheme := "https".toList, Host := "github.com".toList, Path := "/alice".toList }
          none).cookieInterceptor.changer "session=abc; Path=/; Domain=github.com".toList := by
  decide

/-- C15 (amended): the cookie rewrite of `NewReverseProxy` removes the text
`Domain=<host>; `, the attribute together with the separator after it.  A value
made of `pre`, that text and `post`, in which no occurrence of the text begins
before the given one (the text does not occur in `pre` followed by
`Domain=<host>;`) and the text does not occur in `post`, becomes `pre ++ post`; a
value without that text, such as one whose `Domain` attribute is the last one,
is returned as it is. -/
theorem cookie_changer_strips_domain_text (target : URL) (mutator : Option MutateFunc)
    (pre post v : List Char) :
    (¬ ("Domain=".toList ++ target.Hostname ++ "; ".toList) <:+:
          pre ++ ("Domain=".toList ++ target.Hostname ++ ";".toList) →
      ¬ ("Domain=".toList ++ target.Hostname ++ "; ".toList) <:+: post →
      (NewReverseProxy target mutator).cookieInterceptor.changer
          (pre ++ ("Domain=".toList ++ target.Hostname ++ "; ".toList) ++ post)
        = pre ++ post)
    ∧ (¬ ("Domain=".toList ++ target.Hostname ++ "; ".toList) <:+: v →
      (NewReverseProxy target mutator).cookieInterceptor.changer v = v) := by
  have hdh : "Domain=".toList ++ target.Hostname ++ "; ".toList
      = 'D' :: ("omain=".toList ++ target.Hostname ++ "; ".toList) := rfl
  have hold : "Domain=".toList ++ target.Hostname ++ "; ".toList ≠ [] := by
    rw [hdh]; exact List.cons_ne_nil _ _
  have hlast : ("Domain=".toList ++ target.Hostname ++ "; ".toList).dropLast
      = "Domain=".toList ++ target.Hostname ++ ";".toList := by
    have : "Domain=".toList ++ target.Hostname ++ "; ".toList
        = ("Domain=".toList ++ target.Hostname ++ ";".toList) ++ [' '] := by
      simp only [String.toList, List.append_assoc, List.cons_append, List.nil_append]
    rw [this, List.dropLast_concat]
  have hch : ∀ s, (NewReverseProxy target mutator).cookieInterceptor.changer s
      = stringsReplaceAll s ("Domain=".toList ++ target.Hostname ++ "; ".toList) [] :=
    fun _ => rfl
  refine ⟨?_, ?_⟩
  · intro hpre hpost
    rw [← hlast] at hpre
    rw [hch, stringsReplaceAll_step _ _ _ _ hold (no_earlier_start _ pre post hold hpre),
      stringsReplaceAll_of_absent _ _ _ hold hpost]
    simp
  · intro h
    rw [hch]
    exact stringsReplaceAll_of_absent _ _ _ hold h

/-- C15 (witness): the value `session=abc; Domain=github.com; Path=/` for the
upstream host `github.com`. -/
theorem cookie_changer_strips_domain_text_witness :
    (NewReverseProxy
        { Scheme := "https".toList, Host := "github.com".toList, Path := "/alice".toList }
        none).cookieInterceptor.changer
          ("session=abc; ".toList ++ "Domain=github.com; ".toList ++ "Path=/".toList)
      = "session=abc; Path=/".toList :=
  (cookie_changer_strips_domain_text
    { Scheme := "https".toList, Host := "github.com".toList, Path := "/alice".toList } none
    "session=abc; ".toList "Path=/".toList []).1 (by decide) (by decide)

/-! ### The redirect and the links -/

/-- C16: `ServeHTTP` redirects exactly the requests whose path begins with the
path of the target: such a request is answered by a redirect with status 301 to
the URL of the request with the prefix taken off its path, and nothing is
forwarded; any other request is handed to the proxied exchange with the host of
the target. -/
theorem ServeHTTP_redirect_condition (rp : ReverseProxy) (r : Request) :
    (rp.targetURL.Path <+: r.URL.Path →
      rp.ServeHTTP r
          = .redirect { r.URL with Path := r.URL.Path.drop rp.targetURL.Path.length } 301
      ∧ rp.targetURL.Path ++ r.URL.Path.drop rp.targetURL.Path.length = r.URL.Path)
    ∧ (¬ rp.targetURL.Path <+: r.URL.Path →
      rp.ServeHTTP r = .proxied { r with Host := rp.targetURL.Host })
    ∧ ((∃ url code, rp.ServeHTTP r = .redirect url code)
        ↔ rp.targetURL.Path <+: r.URL.Path) := by
  by_cases h : rp.targetURL.Path <+: r.URL.Path
  · have hb : rp.targetURL.Path.isPrefixOf r.URL.Path = true :=
      List.isPrefixOf_iff_prefix.mpr h
    have hs : rp.ServeHTTP r
        = .redirect { r.URL with Path := r.URL.Path.drop rp.targetURL.Path.length } 301 := by
      simp only [ReverseProxy.ServeHTTP, hb, if_true, stringsTrimPrefix, StatusMovedPermanently]
    refine ⟨fun _ => ⟨hs, ?_⟩, fun hn => absurd h hn, ⟨fun _ => h, fun _ => ⟨_, _, hs⟩⟩⟩
    obtain ⟨s, hs1⟩ := h
    rw [← hs1, List.drop_left]
  · have hb : rp.targetURL.Path.isPrefixOf r.URL.Path = false := by
      cases hb : rp.targetURL.Path.isPrefixOf r.URL.Path with
      | false => rfl
      | true => exact absurd (List.isPrefixOf_iff_prefix.mp hb) h
    have hs : rp.ServeHTTP r = .proxied { r with Host := rp.targetURL.Host } := by
      simp only [ReverseProxy.ServeHTTP, hb, Bool.false_eq_true, if_false]
    refine ⟨fun hp => absurd hp h, fun _ => hs, ⟨?_, fun hp => absurd hp h⟩⟩
    rintro ⟨url, code, hr⟩
    rw [hs] at hr
    exact Served.noConfusion hr

/-- C16 (witness): the path `/alice/foo` with the target path `/alice` is
redirected with status 301 to `/foo`. -/
theorem ServeHTTP_redirect_condition_witness :
    (NewReverseProxy
        { Scheme := "https".toList, Host := "github.com".toList, Path := "/alice".toList }
        none).ServeHTTP
          { URL := { Scheme := [], Host := [], Path := "/alice/foo".toList },
            Host := "localhost".toList }
      = .redirect { Scheme := [], Host := [], Path := "/foo".toList } 301 :=
  ((ServeHTTP_redirect_condition
    (NewReverseProxy
      { Scheme := "https".toList, Host := "github.com".toList, Path := "/alice".toList } none)
    { URL := { Scheme := [], Host := [], Path := "/alice/foo".toList },
      Host := "localhost".toList }).1 (by decide)).1

/-- C17 (evaluation at the failing input): for the user `alice` the link
`/alicebob/repo`, which is under the path of another user, passes the prefix test
on `/alice` and is returned as `bob/repo` instead of going to `github.com`. -/
theorem linkReplacer_takes_other_user_for_profile :
    linkReplacer "alice".toList "/alicebob/repo".toList = "bob/repo".toList := by
  decide

/-- C18 (evaluation at the failing input): the link `https://github.community/x`
is a link to another host, yet the text `https://github.com` is trimmed off its
front and what is left, `munity/x`, is returned. -/
theorem linkReplacer_trims_other_host :
    linkReplacer "alice".toList "https://github.community/x".toList = "munity/x".toList := by
  decide

/-- C19 (counterexample): an outer `div` with two nested `div` elements.  The
first deleted span ends at the first `</div>`, but the text after that closing
tag up to the outer closing tag, `c<div>d</div>e</div>`, does not remain: its
own span `<div>d</div>` is deleted as well, and `ce</div>f` is returned. -/
theorem TagRemover_deletes_later_nested_span :
    TagRemover "div".toList "<div>a<div>b</div>c<div>d</div>e</div>f".toList
      = "ce</div>f".toList
    ∧ ¬ "c<div>d</div>e</div>".toList <:+:
        TagRemover "div".toList "<div>a<div>b</div>c<div>d</div>e</div>f".toList := by
  decide

/-- C19 (amended): `TagRemover` is not aware of nesting.  In a document
`pre ++ <tag ++ a1 ++ <tag ++ a2 ++ </tag> ++ between ++ </tag> ++ post`, where the
outer span holds a nested element of the same name (`tag` a name without
metacharacters, no `<tag` in `pre`, no `</tag>` before the one of the nested
element), the first span that is deleted runs from the spaces before the first
`<tag` to the first `</tag>`, the one of the nested element, and the rest, from
`between` on, is handled by the same loop.  When there is no `<tag` from `between`
on, the text `between` and the closing tag of the outer element stay in the
output. -/
theorem TagRemover_stops_at_first_closing_tag (tag pre a1 a2 between post : List Char)
    (htag : plainName tag = true)
    (hpre : ¬ ('<' :: tag) <:+: pre)
    (hclose : ¬ ("</".toList ++ tag ++ ">".toList) <:+: a1 ++ ('<' :: tag) ++ a2) :
    TagRemover tag
        (pre ++ ('<' :: tag) ++ a1 ++ ('<' :: tag) ++ a2 ++ ("</".toList ++ tag ++ ">".toList)
          ++ between ++ ("</".toList ++ tag ++ ">".toList) ++ post)
      = pre.rdropWhile (fun c => c == ' ')
          ++ TagRemover tag (between ++ ("</".toList ++ tag ++ ">".toList) ++ post)
    ∧ (¬ ('<' :: tag) <:+: between ++ ("</".toList ++ tag ++ ">".toList) ++ post →
      TagRemover tag
          (pre ++ ('<' :: tag) ++ a1 ++ ('<' :: tag) ++ a2 ++ ("</".toList ++ tag ++ ">".toList)
            ++ between ++ ("</".toList ++ tag ++ ">".toList) ++ post)
        = pre.rdropWhile (fun c => c == ' ') ++ between
            ++ ("</".toList ++ tag ++ ">".toList) ++ post) := by
  have hlt := plainName_no_lt tag htag
  have hstep := TagRemover_step tag pre (a1 ++ ('<' :: tag) ++ a2)
    (between ++ ("</".toList ++ tag ++ ">".toList) ++ post) hlt hpre (by simp) hclose
  have hdoc : pre ++ ('<' :: tag) ++ a1 ++ ('<' :: tag) ++ a2
        ++ ("</".toList ++ tag ++ ">".toList) ++ between
        ++ ("</".toList ++ tag ++ ">".toList) ++ post
      = pre ++ ('<' :: tag) ++ (a1 ++ ('<' :: tag) ++ a2)
          ++ ("</".toList ++ tag ++ ">".toList)
          ++ (between ++ ("</".toList ++ tag ++ ">".toList) ++ post) := by
    simp only [List.append_assoc]
  refine ⟨?_, ?_⟩
  · rw [hdoc, hstep]
  · intro hrest
    rw [hdoc, hstep, TagRemover_of_absent tag _ (Or.inl hrest)]
    simp only [List.append_assoc]

/-- C19 (witness): a `div` inside a `div`; the text `c</div>` after the first
closing tag stays. -/
theorem TagRemover_stops_at_first_closing_tag_witness :
    TagRemover "div".toList "<p> <div>a<div>b</div>c</div>d".toList = "<p>c</div>d".toList :=
  (TagRemover_stops_at_first_closing_tag "div".toList "<p> ".toList ">a".toList ">b".toList
    "c".toList "d".toList (by decide) (by decide) (by decide)).2 (by decide)

/-- C20 (counterexample): the path `/alicebob` begins with the target path
`/alice`, so it is redirected, and the stripped path `bob` is neither empty nor
does it begin with `/`. -/
theorem ServeHTTP_redirects_to_relative_path :
    (NewReverseProxy
        { Scheme := "https".toList, Host := "github.com".toList, Path := "/alice".toList }
        none).ServeHTTP
          { URL := { Scheme := [], Host := [], Path := "/alicebob".toList },
            Host := "localhost".toList }
      = .redirect { Scheme := [], Host := [], Path := "bob".toList } 301
    ∧ "bob".toList ≠ [] ∧ ¬ "/".toList <+: "bob".toList := by
  refine ⟨rfl, by decide, by decide⟩

/-- C20 (amended): for a request that `ServeHTTP` redirects, the stripped path is
the path of the request with the text of the target path taken off its front.  It
is empty or begins with `/` exactly when the path of the request is the target
path or begins with the target path followed by `/`; for any other redirected
path, one that goes on inside the last segment of the target path, the stripped
path is a relative path. -/
theorem ServeHTTP_stripped_path_shape (rp : ReverseProxy) (r : Request)
    (h : rp.targetURL.Path <+: r.URL.Path) :
    rp.ServeHTTP r
        = .redirect { r.URL with Path := r.URL.Path.drop rp.targetURL.Path.length } 301
    ∧ r.URL.Path = rp.targetURL.Path ++ r.URL.Path.drop rp.targetURL.Path.length
    ∧ ((r.URL.Path.drop rp.targetURL.Path.length = []
          ∨ "/".toList <+: r.URL.Path.drop rp.targetURL.Path.length)
        ↔ (r.URL.Path = rp.targetURL.Path
          ∨ rp.targetURL.Path ++ "/".toList <+: r.URL.Path)) := by
  have hb : rp.targetURL.Path.isPrefixOf r.URL.Path = true :=
    List.isPrefixOf_iff_prefix.mpr h
  have hs : rp.ServeHTTP r
      = .redirect { r.URL with Path := r.URL.Path.drop rp.targetURL.Path.length } 301 := by
    simp only [ReverseProxy.ServeHTTP, hb, if_true, stringsTrimPrefix, StatusMovedPermanently]
  obtain ⟨s, hs1⟩ := h
  have hd : r.URL.Path.drop rp.targetURL.Path.length = s := by
    rw [← hs1, List.drop_left]
  refine ⟨hs, by rw [hd, hs1], ?_⟩
  rw [hd, ← hs1]
  constructor
  · rintro (h0 | h1)
    · left; rw [h0, List.append_nil]
    · right; exact (List.prefix_append_right_inj _).mpr h1
  · rintro (h0 | h1)
    · left
      have := congrArg List.length h0
      simp only [List.length_append] at this
      exact List.eq_nil_of_length_eq_zero (by omega)
    · right; exact (List.prefix_append_right_inj _).mp h1

/-- C20 (witness): the path `/alice/foo` and the path `/alicebob` with the target
path `/alice`. -/
theorem ServeHTTP_stripped_path_shape_witness :
    (NewReverseProxy
        { Scheme := "https".toList, Host := "github.com".toList, Path := "/alice".toList }
        none).ServeHTTP
          { URL := { Scheme := [], Host := [], Path := "/alice/foo".toList },
            Host := "localhost".toList }
      = .redirect { Scheme := [], Host := [], Path := "/foo".toList } 301
    ∧ "/alice/foo".toList = "/alice".toList ++ "/foo".toList :=
  have h := ServeHTTP_stripped_path_shape
    (NewReverseProxy
      { Scheme := "https".toList, Host := "github.com".toList, Path := "/alice".toList } none)
    { URL := { Scheme := [], Host := [], Path := "/alice/foo".toList },
      Host := "localhost".toList } (by decide)
  ⟨h.1, h.2.1⟩

end Ghproxy
